import Mathlib

/-!
Verification of the state-synchronization core of `horovod/torch/functions.py`:
the parameter broadcaster, the optimizer-state broadcaster with recursive type
reconstruction, and the generic object broadcast/allgather protocol.

The Python source is shallowly embedded: tensors are exact buffers of rationals
(the tensor runtime is an external collaborator of the spec), Python dicts are
association lists that keep insertion order, the `'%s.%d'` key format is a
string concatenation with an explicit decimal printer, and the collective
substrate is an explicit function from transfer names to delivered buffers.
Machine-integer behaviour that the protocol touches (the `torch.IntTensor`
length prefix is a signed 32-bit value) is modelled with an explicit wrap.
-/

/-- Association-list lookup, mirroring Python `d[k]` / `k in d` on a dict whose
entries are kept in insertion order. Returns the first binding of the key. -/
def assocGet {α β : Type} [DecidableEq α] : List (α × β) → α → Option β
  | [], _ => none
  | kv :: l, k => if k = kv.1 then some kv.2 else assocGet l k

/-- Association-list update, mirroring Python `d[k] = v`: replaces the value of
an existing key in place (keeping its position) and appends a fresh key. -/
def assocSet {α β : Type} [DecidableEq α] : List (α × β) → α → β → List (α × β)
  | [], k, v => [(k, v)]
  | kv :: l, k, v => if k = kv.1 then (k, v) :: l else kv :: assocSet l k v

/-- In-place update of the element at one position of a list, mirroring a
Python `xs[i]` assignment; indices past the end leave the list unchanged. -/
def listModify {α : Type} (f : α → α) : List α → ℕ → List α
  | [], _ => []
  | x :: l, 0 => f x :: l
  | x :: l, n + 1 => x :: listModify f l n

/-- Positional lookup in a list, mirroring Python `xs[i]` where in-range access
is guaranteed by construction. -/
def listGet {α : Type} : List α → ℕ → Option α
  | [], _ => none
  | x :: _, 0 => some x
  | _ :: l, n + 1 => listGet l n

/-- Decimal digit character, as produced by Python `'%d'` formatting. -/
def decDigitChar (d : ℕ) : Char := Char.ofNat (48 + d)

/-- Fuel-driven decimal printer core (repeated division by ten, most
significant digit first); the fuel is always at least the printed number, so
the recursion never exhausts it. -/
def natDecCore : ℕ → ℕ → List Char
  | 0, _ => []
  | fuel + 1, n =>
    if n < 10 then [decDigitChar n]
    else natDecCore fuel (n / 10) ++ [decDigitChar (n % 10)]

/-- Decimal digit string of a natural number, as Python `'%d' % n` prints it. -/
def natDec (n : ℕ) : List Char := natDecCore (n + 1) n

/-- The `'%s.%d' % (name, i)` key format used for every broadcast key of
`broadcast_optimizer_state`. -/
def mkKey (name : String) (i : ℕ) : String := name ++ "." ++ ⟨natDec i⟩

/-- Reinterpretation of an integer as a signed 32-bit value, the storage type
of the `torch.IntTensor` length prefix used by the object exchange protocol. -/
def int32wrap (z : ℤ) : ℤ := (z + 2 ^ 31) % 2 ^ 32 - 2 ^ 31

/-- Left fold of additions performed in 32-bit arithmetic, as Python `sum`
over a NumPy `int32` size vector computes prefix sums. -/
def wrapSum (l : List ℤ) : ℤ := l.foldl (fun a s => int32wrap (a + s)) 0

/-- Distributed execution of `broadcast_object` observed on rank `r`: the root
serializes its object and broadcasts the byte length as a one-element signed
32-bit integer tensor followed by the payload; a non-root rank receives the
length into a zero-initialized integer tensor, allocates a byte buffer of
exactly that length (failing on a negative length), receives the payload into
it (the collective requires the buffer shapes to agree), and deserializes.
The root returns its own object without deserializing.  `objs` gives each
rank's argument; only the root rank's object is ever serialized. -/
def broadcast_object {Obj : Type} (dump : Obj → List ℕ) (load : List ℕ → Option Obj)
    (objs : ℕ → Obj) (rootRank r : ℕ) : Option Obj :=
  let rootBytes := dump (objs rootRank)
  if r = rootRank then
    some (objs r)
  else
    let szv := int32wrap rootBytes.length
    if szv < 0 then none
    else if szv.toNat ≠ rootBytes.length then none
    else load rootBytes

/-- Distributed execution of `allgather_object` (identical on every rank):
each rank serializes its object, the byte lengths are allgathered as signed
32-bit values, the payloads are allgathered into one concatenated buffer in
rank order, and each of the `world_size` segments is cut out with prefix sums
over the gathered size vector (`start = sum(sizes[:i])`,
`end = start + sizes[i]`, both in 32-bit arithmetic) and deserialized
independently. -/
def allgather_object {Obj : Type} (dump : Obj → List ℕ) (load : List ℕ → Option Obj)
    (objs : List Obj) : List (Option Obj) :=
  let dumps := objs.map dump
  let sizes : List ℤ := dumps.map (fun d => int32wrap d.length)
  let gathered : List ℕ := dumps.flatten
  (List.range objs.length).map (fun i =>
    let start := wrapSum (sizes.take i)
    let stop := int32wrap (start + (listGet sizes i).getD 0)
    load ((gathered.drop start.toNat).take (stop - start).toNat))

/-- Python type tags of the non-tensor scalar leaves that optimizer state and
hyperparameters contain (`float`, `int`, `bool`). -/
inductive ScalarTy where
  | tyFloat
  | tyInt
  | tyBool
deriving DecidableEq

/-- Python container type tags recognised by the duck-typed recursion of
`_get_types` (`list`, `tuple`). -/
inductive ContTy where
  | ctyList
  | ctyTuple
deriving DecidableEq

/-- Application of a Python scalar type constructor to a numeric value:
`float` is the identity on exact numbers, `int` truncates toward zero, and
`bool` maps zero to `False` (0) and everything else to `True` (1). -/
def castTy : ScalarTy → ℚ → ℚ
  | .tyFloat, q => q
  | .tyInt, q => mkRat (q.num.tdiv q.den) 1
  | .tyBool, q => if q = 0 then 0 else 1

/-- A supported non-tensor value: a scalar or a nested container of scalars
(the shape `_get_types` and `_recursive_cast` are written for). -/
inductive Value where
  | vscalar (ty : ScalarTy) (q : ℚ)
  | vcont (c : ContTy) (elems : List Value)

/-- The recursive type signature built by `_get_types`: either a scalar type
tag or a container type tag with the signatures of the children. -/
inductive TypeSig where
  | sScalar (ty : ScalarTy)
  | sCont (c : ContTy) (sigs : List TypeSig)

/-- The content of a tensor or NumPy array slice: an exact number or a nested
array of them (type tags are erased, which is why the signature is needed to
invert flattening). -/
inductive TensorData where
  | tnum (q : ℚ)
  | tarr (xs : List TensorData)

mutual

/-- Embedding of `_get_types`: containers are `Iterable` and recurse into a
pair of the container type and the children's signatures; scalars yield their
type alone. -/
def get_types : Value → TypeSig
  | .vscalar ty _ => .sScalar ty
  | .vcont c l => .sCont c (getTypesList l)

/-- List worker of `get_types` (the Python list comprehension). -/
def getTypesList : List Value → List TypeSig
  | [] => []
  | v :: l => get_types v :: getTypesList l

end

mutual

/-- Content that `torch.Tensor([v]).cpu().numpy()[0]` holds for a supported
value `v`: scalars become numbers and containers become nested arrays, with
Python type tags erased. -/
def flattenV : Value → TensorData
  | .vscalar _ q => .tnum q
  | .vcont _ l => .tarr (flattenVList l)

/-- List worker of `flattenV`. -/
def flattenVList : List Value → List TensorData
  | [] => []
  | v :: l => flattenV v :: flattenVList l

end

mutual

/-- Embedding of `_recursive_cast`: a container signature first casts the
array to the container type (failing on a non-iterable scalar) and then casts
each child, indexing `dtypes[i]` for `i` in `range(len(x))` (so an array
longer than its signature fails); a scalar signature applies the scalar type
constructor to a number (and fails on an array). -/
def recursive_cast : TensorData → TypeSig → Option Value
  | x, .sCont c sigs =>
    match x with
    | .tarr xs => (recursiveCastList xs sigs).map (Value.vcont c)
    | .tnum _ => none
  | .tnum q, .sScalar ty => some (.vscalar ty (castTy ty q))
  | .tarr _, .sScalar _ => none

/-- List worker of `recursive_cast`: consumes the array elements in order,
failing when the signature list is exhausted first; surplus signatures are
ignored as `range(len(x))` never reaches them. -/
def recursiveCastList : List TensorData → List TypeSig → Option (List Value)
  | [], _ => some []
  | _ :: _, [] => none
  | x :: xs, s :: ss =>
    match recursive_cast x s with
    | none => none
    | some v => (recursiveCastList xs ss).map (v :: ·)

end

mutual

/-- A value is supported for lossless flattening when every scalar leaf is a
fixed point of its own type constructor (an exact `float`, an integral `int`,
a 0/1 `bool`). -/
def wfValue : Value → Bool
  | .vscalar ty q => castTy ty q == q
  | .vcont _ l => wfValueList l

/-- List worker of `wfValue`. -/
def wfValueList : List Value → Bool
  | [] => true
  | v :: l => wfValue v && wfValueList l

end

mutual

/-- Shape equality of tensor contents: the collective broadcast contract
replaces a buffer's values but never its shape. -/
def sameShape : TensorData → TensorData → Bool
  | .tnum _, .tnum _ => true
  | .tarr xs, .tarr ys => sameShapeList xs ys
  | _, _ => false

/-- List worker of `sameShape`. -/
def sameShapeList : List TensorData → List TensorData → Bool
  | [], [] => true
  | x :: xs, y :: ys => sameShape x y && sameShapeList xs ys
  | _, _ => false

end

/-- Parameter identifiers, the integer indices that `state_dict()` uses as
keys of its packed per-parameter state. -/
abbrev Pid := ℕ

/-- A per-parameter state-field value as the source handles it: a tensor or a
non-tensor scalar with its Python type. -/
inductive Entry where
  | tensorE (t : TensorData)
  | scalarE (ty : ScalarTy) (q : ℚ)

/-- The per-parameter state dict of an optimizer (`state_dict()['state']`). -/
abbrev OptState := List (Pid × List (String × Entry))

/-- One parameter group of `state_dict()['param_groups']`: scalar
hyperparameters (everything but the `'params'` key) and the ordered parameter
identifier list. -/
structure ParamGroup where
  options : List (String × Value)
  params : List Pid

/-- The data of one model parameter object needed by the lazy-initialization
pass: whether it requires gradients, its element count, and its current
gradient buffer (if one has been assigned). -/
structure PInfo where
  requiresGrad : Bool
  psize : ℕ
  grad : Option (List ℚ)
deriving DecidableEq

/-- An optimizer as `broadcast_optimizer_state` observes it.  `isLBFGS` is the
`isinstance(optimizer, torch.optim.LBFGS)` test; `isDistributed` is the
`optimizer.__module__ == DistributedOptimizer.__module__` test; `stepState` is
the per-parameter state that one invocation of the underlying update rule
materializes (the update rule's mathematics is an external collaborator). -/
structure Optimizer where
  isLBFGS : Bool
  isDistributed : Bool
  paramGroups : List ParamGroup
  state : OptState
  pmeta : List (Pid × PInfo)
  stepState : OptState

/-- Reconstruction-callback data. The Python closures of `_create_callback`
and `_create_option_callback` capture exactly these values (plus the broadcast
tensor itself, which the reconstruction loop supplies from the batch because
the closure aliases the tensor object stored there). -/
inductive CB where
  | optionCB (index : ℕ) (optionKey : String) (dtypes : TypeSig)
  | stateCB (pid : Pid) (name : String) (ty : ScalarTy)

/-- One element of the accumulated `params` batch: the broadcast key, the
tensor content, and — for tensor-valued state fields, which Python appends by
reference — the state slot that aliases the tensor, making the in-place
mutation of `broadcast_` explicit. Wrapped scalars and option tensors are
fresh one-element tensors and alias no slot. -/
structure ParamEntry where
  key : String
  tensor : TensorData
  stateAlias : Option (Pid × String)

/-- The mutable context of the key-building loop of
`broadcast_optimizer_state` (lines 104-175): the per-field-name occurrence
counters, the accumulated `params` batch, and the `callbacks` dict. -/
structure BuildAcc where
  occurrences : List (String × ℕ)
  params : List ParamEntry
  callbacks : List (String × CB)

/-- Occurrence-counter read with the `defaultdict(int)` default of zero. -/
def getOcc (occ : List (String × ℕ)) (nm : String) : ℕ := (assocGet occ nm).getD 0

/-- The hyperparameter loop for one group (lines 143-152): every option other
than `'params'` gets key `'%s.%d' % (option_key, index)`, is wrapped in a
one-element tensor, and registers an option reconstruction callback. -/
def procOptions (index : ℕ) (opts : List (String × Value)) (acc : BuildAcc) : BuildAcc :=
  opts.foldl (fun acc kv =>
    let key := mkKey kv.1 index
    { acc with
      params := acc.params ++ [⟨key, .tarr [flattenV kv.2], none⟩]
      callbacks := assocSet acc.callbacks key (.optionCB index kv.1 (get_types kv.2)) }) acc

/-- The state-field loop for one parameter (lines 161-175): every field bumps
its name's occurrence counter and gets key `'%s.%d' % (name, occurrence)`;
tensor fields are appended by reference, non-tensor scalars are wrapped in a
one-element tensor and register a state reconstruction callback. -/
def procFields (pid : Pid) (fields : List (String × Entry)) (acc : BuildAcc) : BuildAcc :=
  fields.foldl (fun acc ne =>
    let c := getOcc acc.occurrences ne.1 + 1
    let occ2 := assocSet acc.occurrences ne.1 c
    let key := mkKey ne.1 c
    match ne.2 with
    | .tensorE t =>
      { acc with
        occurrences := occ2
        params := acc.params ++ [⟨key, t, some (pid, ne.1)⟩] }
    | .scalarE ty q =>
      { acc with
        occurrences := occ2
        params := acc.params ++ [⟨key, .tarr [.tnum q], none⟩]
        callbacks := assocSet acc.callbacks key (.stateCB pid ne.1 ty) }) acc

/-- The parameter loop of one group (lines 155-158): a parameter identifier
with no entry in the state dict is skipped entirely. -/
def procPids (st : OptState) (pids : List Pid) (acc : BuildAcc) : BuildAcc :=
  pids.foldl (fun acc pid =>
    match assocGet st pid with
    | none => acc
    | some fields => procFields pid fields acc) acc

/-- The group loop (lines 141-175): groups are processed in order with their
index, options first and then the parameters owning state. -/
def procGroups (st : OptState) : List ParamGroup → ℕ → BuildAcc → BuildAcc
  | [], _, acc => acc
  | g :: gs, index, acc =>
    procGroups st gs (index + 1) (procPids st g.params (procOptions index g.options acc))

/-- The full accumulated batch of one `broadcast_optimizer_state` call. -/
def buildAcc (o : Optimizer) : BuildAcc := procGroups o.state o.paramGroups 0 ⟨[], [], []⟩

/-- Embedding of `broadcast_parameters` on the accumulated batch: the
collective substrate `net` maps each transfer name and outgoing buffer to the
delivered buffer (or to the error the failing synchronize raises). All
transfers complete or the error propagates; no partially-delivered batch is
exposed (blocking collective semantics of the spec). -/
def broadcast_parameters (net : String → TensorData → Except String TensorData) :
    List ParamEntry → Except String (List ParamEntry)
  | [] => .ok []
  | e :: es =>
    match net e.key e.tensor with
    | .error err => .error err
    | .ok t2 =>
      match broadcast_parameters net es with
      | .error err => .error err
      | .ok es2 => .ok ({ e with tensor := t2 } :: es2)

/-- Write one state field of the state dict (the inner dicts of
`state_dict()['state']` are the optimizer's own state dicts, so this is an
in-place optimizer mutation). -/
def stateSetField (st : OptState) (pid : Pid) (nm : String) (e : Entry) : OptState :=
  match assocGet st pid with
  | none => st
  | some fields => assocSet st pid (assocSet fields nm e)

/-- The in-place effect of the batched broadcast on tensor-valued state
fields: every batch element appended by reference now holds the delivered
buffer in the state slot that aliases it. -/
def applyAliasWrites (st : OptState) (ps : List ParamEntry) : OptState :=
  ps.foldl (fun st e =>
    match e.stateAlias with
    | none => st
    | some pn => stateSetField st pn.1 pn.2 (.tensorE e.tensor)) st

/-- The `p.cpu().numpy()[0]` read of a one-element tensor: the leading index
of the array, failing (IndexError) on an empty or zero-dimensional tensor. -/
def tGetZero : TensorData → Option TensorData
  | .tarr (x :: _) => some x
  | _ => none

/-- The write `optimizer.param_groups[index][option_key] = v` (failing when
the group index is out of range, which the builder never produces). -/
def setGroupOption (o : Optimizer) (index : ℕ) (k : String) (v : Value) : Option Optimizer :=
  if index < o.paramGroups.length then
    let setOpt := fun (g : ParamGroup) => { g with options := assocSet g.options k v }
    some { o with paramGroups := listModify setOpt o.paramGroups index }
  else none

/-- The write `state_dict['state'][pid][name] = v` (failing when the pid owns
no state entry, which the builder never produces). -/
def setStateScalar (o : Optimizer) (pid : Pid) (nm : String) (ty : ScalarTy) (q : ℚ) :
    Option Optimizer :=
  match assocGet o.state pid with
  | none => none
  | some fields =>
    some { o with state := assocSet o.state pid (assocSet fields nm (.scalarE ty q)) }

/-- Invocation of one reconstruction callback on its now-synchronized
one-element tensor: an option callback reads index zero and applies
`_recursive_cast` with the recorded signature; a state callback reads index
zero and applies the recorded scalar type constructor. -/
def applyCB (o : Optimizer) : CB → TensorData → Option Optimizer
  | .optionCB index k sig, t =>
    match tGetZero t with
    | none => none
    | some x =>
      match recursive_cast x sig with
      | none => none
      | some v => setGroupOption o index k v
  | .stateCB pid nm ty, t =>
    match tGetZero t with
    | some (.tnum q) => setStateScalar o pid nm ty (castTy ty q)
    | _ => none

/-- The post-broadcast cleanup loop (lines 181-183): for every batch element
whose key is registered in the callbacks dict, invoke the callback on the
delivered tensor. -/
def runCallbacks (cbs : List (String × CB)) : Optimizer → List ParamEntry → Option Optimizer
  | o, [] => some o
  | o, e :: es =>
    match assocGet cbs e.key with
    | none => runCallbacks cbs o es
    | some cb =>
      match applyCB o cb e.tensor with
      | none => none
      | some o2 => runCallbacks cbs o2 es

/-- Which update rule an optimization step during lazy initialization
invoked: the undecorated base rule, or a distributed wrapper's rule. -/
inductive StepEv where
  | baseRuleStep
  | wrappedRuleStep
deriving DecidableEq

/-- The zero gradient `p.data.new(p.size()).zero_()` assigned during lazy
initialization. -/
def zeroGradTensor (n : ℕ) : List ℚ := List.replicate n 0

/-- One parameter of the gradient-assignment loop (lines 84-85): a parameter
that requires gradients and has no state entry gets a zero gradient of its own
size (the state membership test is against the state dict, which is empty
whenever this loop runs). -/
def azgStep (st : OptState) (meta : List (Pid × PInfo)) (pid : Pid) : List (Pid × PInfo) :=
  match assocGet meta pid with
  | none => meta
  | some p =>
    if p.requiresGrad && (assocGet st pid).isNone then
      assocSet meta pid { p with grad := some (zeroGradTensor p.psize) }
    else meta

/-- The per-parameter effect of `azgStep` on the parameter it touches. -/
def azgApply (st : OptState) (pid : Pid) (p : PInfo) : PInfo :=
  if p.requiresGrad && (assocGet st pid).isNone then
    { p with grad := some (zeroGradTensor p.psize) }
  else p

/-- The gradient-assignment loop of lazy initialization (lines 82-85): every
parameter of every group that requires gradients and has no state entry gets a
zero gradient. -/
def assignZeroGrads (st : OptState) (groups : List ParamGroup)
    (meta : List (Pid × PInfo)) : List (Pid × PInfo) :=
  groups.foldl (fun meta g => g.params.foldl (azgStep st) meta) meta

/-- Invocation of `optimizer.step()`. Modelled from the spec for the
distributed wrapper (its class lives outside this source file): a
`DistributedOptimizer`'s own `step` is the collectively-synchronized wrapped
rule, which forces an allreduce on every model parameter; a plain torch
optimizer's `step` is the undecorated base rule with no communication. -/
def optStep (o : Optimizer) : OptState × StepEv × List String :=
  if o.isDistributed then
    (o.stepState, .wrappedRuleStep,
      (o.paramGroups.map (fun g => g.params.map (fun pid => mkKey "allreduce" pid))).flatten)
  else (o.stepState, .baseRuleStep, [])

/-- Invocation of `super(optimizer.__class__, optimizer).step()`: the parent
class of the dynamically-created distributed wrapper class is the wrapped
optimizer's original class, so this is the undecorated base update rule and
issues no collective call. -/
def parentClassStep (o : Optimizer) : OptState × StepEv × List String :=
  (o.stepState, .baseRuleStep, [])

/-- The lazy-initialization pass (lines 79-95): when the per-parameter state
is empty, assign zero gradients, invoke exactly one optimization step — the
parent class's step for a distributed-wrapped optimizer, the optimizer's own
step otherwise — and re-read the state. Returns the updated optimizer, the
step events, and the collective calls issued. -/
def initPhase (o : Optimizer) : Optimizer × List StepEv × List String :=
  if o.state.isEmpty then
    let o2 := { o with pmeta := assignZeroGrads o.state o.paramGroups o.pmeta }
    let r := if o2.isDistributed then parentClassStep o2 else optStep o2
    ({ o2 with state := r.1 }, [r.2.1], r.2.2)
  else (o, [], [])

/-- The failures `broadcast_optimizer_state` can raise: the up-front rejection
of `torch.optim.LBFGS`, an error propagated from the batched broadcast, and a
runtime error from a reconstruction callback. -/
inductive BroadcastError where
  | unsupportedOptimizer
  | collectiveFailure (msg : String)
  | runtimeFailure
deriving DecidableEq

/-- Embedding of `broadcast_optimizer_state` (lines 62-183): reject LBFGS
before anything else, lazily initialize empty state, return silently when the
state is still empty, build the uniquely-keyed batch, broadcast it as one
batch, apply the in-place tensor writes, and run the reconstruction
callbacks. Returns the outcome and the names of all collective calls issued. -/
def broadcast_optimizer_state (o : Optimizer)
    (net : String → TensorData → Except String TensorData) :
    Except BroadcastError Optimizer × List String :=
  if o.isLBFGS then (.error .unsupportedOptimizer, [])
  else
    let ir := initPhase o
    let o1 := ir.1
    if o1.state.isEmpty then (.ok o1, ir.2.2)
    else
      let acc := buildAcc o1
      let bcastNames := acc.params.map ParamEntry.key
      match broadcast_parameters net acc.params with
      | .error e => (.error (.collectiveFailure e), ir.2.2 ++ bcastNames)
      | .ok newParams =>
        let o2 := { o1 with state := applyAliasWrites o1.state newParams }
        match runCallbacks acc.callbacks o2 newParams with
        | none => (.error .runtimeFailure, ir.2.2 ++ bcastNames)
        | some o3 => (.ok o3, ir.2.2 ++ bcastNames)

/-- The number delivered by the collective for a wrapped scalar: what the
reconstruction reads at index zero of the delivered one-element tensor (the
fallback value is irrelevant because a shape-preserving collective always
delivers a one-element number there). -/
def numTweak (tweak : TensorData → TensorData) (q : ℚ) : ℚ :=
  match tGetZero (tweak (.tarr [.tnum q])) with
  | some (.tnum q2) => q2
  | _ => q

/-- The value an option slot holds after broadcast and reconstruction: the
delivered array content recast through the slot's recorded type signature
(again the fallback is irrelevant under a shape-preserving collective). -/
def valueTweak (tweak : TensorData → TensorData) (v : Value) : Value :=
  match tGetZero (tweak (.tarr [flattenV v])) with
  | some x =>
    match recursive_cast x (get_types v) with
    | some v2 => v2
    | none => v
  | none => v

/-- The expected post-call content of one state field: tensor fields hold the
delivered buffer, scalar fields hold the delivered number cast back through
their recorded scalar type. -/
def entrySpec (tweak : TensorData → TensorData) : Entry → Entry
  | .tensorE t => .tensorE (tweak t)
  | .scalarE ty q => .scalarE ty (castTy ty (numTweak tweak q))

/-- The expected post-call optimizer when the collective delivers
`tweak buffer` for every transfer: every hyperparameter and every state field
is replaced by the reconstruction of its own delivered tensor, slot by slot;
nothing else changes. -/
def specMap (tweak : TensorData → TensorData) (o : Optimizer) : Optimizer :=
  { o with
    paramGroups := o.paramGroups.map (fun g =>
      { g with options := g.options.map (fun kv => (kv.1, valueTweak tweak kv.2)) })
    state := o.state.map (fun ps =>
      (ps.1, ps.2.map (fun ne => (ne.1, entrySpec tweak ne.2)))) }

/-- All hyperparameter names of all groups. -/
def optionNamesOf (o : Optimizer) : List String :=
  (o.paramGroups.map (fun g => g.options.map Prod.fst)).flatten

/-- All state-field names of all per-parameter state entries. -/
def fieldNamesOf (o : Optimizer) : List String :=
  (o.state.map (fun ps => ps.2.map Prod.fst)).flatten

/-- All parameter identifiers listed by the parameter groups. -/
def groupPidsOf (o : Optimizer) : List Pid :=
  (o.paramGroups.map ParamGroup.params).flatten

/-- The gradient assignment of the lazy-initialization pass as a per-parameter
function: parameters requiring gradients get a zero gradient of their size. -/
def zeroIfReq (p : PInfo) : PInfo :=
  if p.requiresGrad then { p with grad := some (zeroGradTensor p.psize) } else p

/-- The optimizer with every parameter identifier owning no state removed from
its groups' parameter lists (the frame of claim C10: such identifiers
contribute nothing to the broadcast). -/
def pruneStateless (o : Optimizer) : Optimizer :=
  { o with paramGroups := o.paramGroups.map (fun g =>
      { g with params := g.params.filter (fun pid => (assocGet o.state pid).isSome) }) }

/-- Optimizer with two parameter groups that both carry a hyperparameter named
`foo` and a state field also named `foo`: group 1's option key and the first
occurrence of the state field produce the same broadcast key `foo.1`. -/
def exCollide : Optimizer :=
  { isLBFGS := false
    isDistributed := false
    paramGroups := [⟨[("foo", .vscalar .tyFloat 1)], []⟩, ⟨[("foo", .vscalar .tyFloat 2)], [0]⟩]
    state := [(0, [("foo", .scalarE .tyFloat 3)])]
    pmeta := []
    stepState := [] }

/-- A well-formed optimizer exercising every slot kind: two hyperparameters
(one nested), a scalar state field name shared by two parameters, and a tensor
state field. -/
def exOpt : Optimizer :=
  { isLBFGS := false
    isDistributed := false
    paramGroups := [⟨[("lr", .vscalar .tyFloat (mkRat 1 10)),
      ("betas", .vcont .ctyTuple [.vscalar .tyFloat (mkRat 9 10),
        .vscalar .tyFloat (mkRat 999 1000)])],
      [0, 1]⟩]
    state := [(0, [("step", .scalarE .tyInt 3), ("exp_avg", .tensorE (.tarr [.tnum 1, .tnum 2]))]),
      (1, [("step", .scalarE .tyInt 4)])]
    pmeta := [(0, ⟨true, 2, none⟩), (1, ⟨true, 1, none⟩)]
    stepState := [] }

/-- A freshly constructed distributed-wrapped optimizer: empty state, one
parameter requiring gradients and one frozen parameter. -/
def exInit : Optimizer :=
  { isLBFGS := false
    isDistributed := true
    paramGroups := [⟨[("lr", .vscalar .tyFloat 1)], [0, 1]⟩]
    state := []
    pmeta := [(0, ⟨true, 2, none⟩), (1, ⟨false, 3, none⟩)]
    stepState := [(0, [("momentum_buffer", .scalarE .tyFloat 0)])] }

/-- An optimizer of the rejected kind (`torch.optim.LBFGS`). -/
def exLBFGS : Optimizer :=
  { isLBFGS := true
    isDistributed := false
    paramGroups := [⟨[("lr", .vscalar .tyFloat 1)], [0]⟩]
    state := [(0, [("step", .scalarE .tyInt 1)])]
    pmeta := [(0, ⟨true, 1, none⟩)]
    stepState := [] }

/-- Decimal reading of a digit string, the left inverse used to prove the key
format injective. -/
def charsVal (l : List Char) : ℕ := l.foldl (fun a c => a * 10 + (c.toNat - 48)) 0

/-- The slot of the optimizer that one batch element transports: a group
hyperparameter, a wrapped scalar state field, or a tensor state field. -/
inductive SlotDesc where
  | optSlot (index : ℕ) (k : String) (v : Value)
  | scalarSlot (pid : Pid) (nm : String) (ty : ScalarTy) (q : ℚ)
  | tensorSlot (pid : Pid) (nm : String) (t : TensorData)

/-- Group `index` exists and its option `k` currently holds `v`. -/
def optionSlotIs (o : Optimizer) (index : ℕ) (k : String) (v : Value) : Prop :=
  ∃ g, listGet o.paramGroups index = some g ∧ assocGet g.options k = some v

/-- Parameter `pid` owns state and its field `nm` currently holds `e`. -/
def stateSlotIs (o : Optimizer) (pid : Pid) (nm : String) (e : Entry) : Prop :=
  ∃ fields, assocGet o.state pid = some fields ∧ assocGet fields nm = some e

/-- What it means for a batch element to faithfully transport one slot of the
optimizer `o` under the callbacks dict `cbs`: its tensor holds the slot's
flattened current value, its alias and callback registration match the slot
kind, and the slot really holds that value. -/
def EntryIs (o : Optimizer) (cbs : List (String × CB)) (e : ParamEntry) : SlotDesc → Prop
  | .optSlot index k v =>
    e.tensor = .tarr [flattenV v] ∧ e.stateAlias = none ∧
      assocGet cbs e.key = some (.optionCB index k (get_types v)) ∧ optionSlotIs o index k v
  | .scalarSlot pid nm ty q =>
    e.tensor = .tarr [.tnum q] ∧ e.stateAlias = none ∧
      assocGet cbs e.key = some (.stateCB pid nm ty) ∧ stateSlotIs o pid nm (.scalarE ty q)
  | .tensorSlot pid nm t =>
    e.tensor = t ∧ e.stateAlias = some (pid, nm) ∧
      assocGet cbs e.key = none ∧ stateSlotIs o pid nm (.tensorE t)

/-- The slot descriptor of one state field. -/
def fieldSlotDesc (pid : Pid) (ne : String × Entry) : SlotDesc :=
  match ne.2 with
  | .tensorE t => .tensorSlot pid ne.1 t
  | .scalarE ty q => .scalarSlot pid ne.1 ty q

/-- Shape of every key generated so far: an option key `mkKey k j` with `j`
below the group index currently being processed (or equal to it for an
already-processed option name of the current group, listed in `done`), or a
state key `mkKey nm c` whose counter is positive and bounded by the current
occurrence count of its field name. -/
def KeyShape (o : Optimizer) (bound : ℕ) (done : List String)
    (occ : List (String × ℕ)) (key : String) : Prop :=
  (∃ k j, key = mkKey k j ∧ k ∈ optionNamesOf o ∧ (j < bound ∨ (j = bound ∧ k ∈ done)))
  ∨ (∃ nm c, key = mkKey nm c ∧ nm ∈ fieldNamesOf o ∧ 1 ≤ c ∧ c ≤ getOcc occ nm)

/-- Invariant of the batch-building loop: keys are pairwise distinct and of
the stated shape, every callback key belongs to some batch element, and every
batch element faithfully transports some slot. -/
structure BInv (o : Optimizer) (bound : ℕ) (done : List String) (acc : BuildAcc) : Prop where
  nodup : (acc.params.map ParamEntry.key).Nodup
  shape : ∀ e ∈ acc.params, KeyShape o bound done acc.occurrences e.key
  cbsSub : ∀ kc ∈ acc.callbacks, kc.1 ∈ acc.params.map ParamEntry.key
  sound : ∀ e ∈ acc.params, ∃ sd, EntryIs o acc.callbacks e sd

/-- Read the current value of one group hyperparameter slot. -/
def optGet2 (o : Optimizer) (index : ℕ) (k : String) : Option Value :=
  (listGet o.paramGroups index).bind (fun g => assocGet g.options k)

/-- Read the current value of one per-parameter state field. -/
def stateGetF (st : OptState) (pid : Pid) (nm : String) : Option Entry :=
  (assocGet st pid).bind (fun fs => assocGet fs nm)

/-- A batch element after the collective delivered `tweak` of its buffer. -/
def tweakEntry (tweak : TensorData → TensorData) (e : ParamEntry) : ParamEntry :=
  { e with tensor := tweak e.tensor }

/-- Two optimizers have the same parameter-group skeleton: equally many
groups, with identical option-name lists and identical parameter lists. -/
def GroupsShape (o1 o : Optimizer) : Prop :=
  o.paramGroups.length = o1.paramGroups.length ∧
  (∀ i, (listGet o.paramGroups i).map (fun g => g.options.map Prod.fst) =
    (listGet o1.paramGroups i).map (fun g => g.options.map Prod.fst)) ∧
  (∀ i, (listGet o.paramGroups i).map ParamGroup.params =
    (listGet o1.paramGroups i).map ParamGroup.params)

/-- Two state dicts have the same skeleton: identical parameter-identifier
lists and identical field-name lists per parameter. -/
def StateShape (st1 st : OptState) : Prop :=
  st.map Prod.fst = st1.map Prod.fst ∧
  (∀ pid, (assocGet st pid).map (fun fs => fs.map Prod.fst) =
    (assocGet st1 pid).map (fun fs => fs.map Prod.fst))

/-! Basic lemmas about the embedded primitives. -/

theorem int32wrap_of_nonneg_lt (z : ℤ) (h0 : 0 ≤ z) (h1 : z < 2 ^ 31) :
    int32wrap z = z := by
  have e31 : (2 : ℤ) ^ 31 = 2147483648 := by norm_num
  have e32 : (2 : ℤ) ^ 32 = 4294967296 := by norm_num
  rw [e31] at h1
  unfold int32wrap
  rw [e31, e32, Int.emod_eq_of_lt (by omega) (by omega)]
  omega

theorem decDigitChar_toNat : ∀ d, d < 10 → (decDigitChar d).toNat = 48 + d := by decide

theorem decDigitChar_ne_dot : ∀ d, d < 10 → decDigitChar d ≠ '.' := by decide

theorem natDecCore_no_dot (f : ℕ) : ∀ n, n < f → ∀ c ∈ natDecCore f n, c ≠ '.' := by
  induction f with
  | zero => intro n h; omega
  | succ fa ih =>
    intro n _ c hc
    rw [natDecCore] at hc
    by_cases hn : n < 10
    · simp [hn] at hc
      exact hc ▸ decDigitChar_ne_dot n hn
    · simp [hn, List.mem_append] at hc
      rcases hc with hc | hc
      · have hdiv : n / 10 < n := Nat.div_lt_self (by omega) (by omega)
        exact ih (n / 10) (by omega) c hc
      · exact hc ▸ decDigitChar_ne_dot (n % 10) (Nat.mod_lt n (by omega))

theorem charsVal_append_digit (l : List Char) (c : Char) :
    charsVal (l ++ [c]) = charsVal l * 10 + (c.toNat - 48) := by
  simp [charsVal, List.foldl_append]

theorem natDecCore_val (f : ℕ) : ∀ n, n < f → charsVal (natDecCore f n) = n := by
  induction f with
  | zero => intro n h; omega
  | succ fa ih =>
    intro n hn
    rw [natDecCore]
    by_cases h10 : n < 10
    · simp [h10, charsVal, decDigitChar_toNat n h10]
    · have hdiv : n / 10 < n := Nat.div_lt_self (by omega) (by omega)
      simp only [h10, if_false, charsVal_append_digit, ih (n / 10) (by omega),
        decDigitChar_toNat (n % 10) (Nat.mod_lt n (by omega))]
      omega

theorem natDec_no_dot (n : ℕ) : ∀ c ∈ natDec n, c ≠ '.' :=
  natDecCore_no_dot (n + 1) n (Nat.lt_succ_self n)

theorem natDec_inj {m n : ℕ} (h : natDec m = natDec n) : m = n := by
  have hm := natDecCore_val (m + 1) m (Nat.lt_succ_self m)
  have hn := natDecCore_val (n + 1) n (Nat.lt_succ_self n)
  rw [natDec] at h
  rw [h, natDec] at hm
  omega

theorem nodot_suffix_inj :
    ∀ (u1 u2 v1 v2 : List Char), (∀ c ∈ u1, c ≠ '.') → (∀ c ∈ u2, c ≠ '.') →
      u1 ++ '.' :: v1 = u2 ++ '.' :: v2 → u1 = u2 ∧ v1 = v2 := by
  intro u1
  induction u1 with
  | nil =>
    intro u2 v1 v2 _ h2 heq
    cases u2 with
    | nil => simpa using heq
    | cons c u2 =>
      simp only [List.nil_append, List.cons_append, List.cons.injEq] at heq
      exact absurd heq.1.symm (h2 c (by simp))
  | cons c u1 ih =>
    intro u2 v1 v2 h1 h2 heq
    cases u2 with
    | nil =>
      simp only [List.cons_append, List.nil_append, List.cons.injEq] at heq
      exact absurd heq.1 (h1 c (by simp))
    | cons d u2 =>
      simp only [List.cons_append, List.cons.injEq] at heq
      obtain ⟨rfl, heq⟩ := heq
      have := ih u2 v1 v2 (fun x hx => h1 x (by simp [hx])) (fun x hx => h2 x (by simp [hx])) heq
      exact ⟨by rw [this.1], this.2⟩

theorem mkKey_data (nm : String) (i : ℕ) : (mkKey nm i).data = nm.data ++ '.' :: natDec i := by
  simp [mkKey, String.data_append]

theorem mkKey_inj {n1 n2 : String} {i1 i2 : ℕ} (h : mkKey n1 i1 = mkKey n2 i2) :
    n1 = n2 ∧ i1 = i2 := by
  have hdata : n1.data ++ '.' :: natDec i1 = n2.data ++ '.' :: natDec i2 := by
    rw [← mkKey_data, ← mkKey_data, h]
  have hrev : (natDec i1).reverse ++ '.' :: n1.data.reverse =
      (natDec i2).reverse ++ '.' :: n2.data.reverse := by
    have := congrArg List.reverse hdata
    simpa [List.reverse_append] using this
  have hnd1 : ∀ c ∈ (natDec i1).reverse, c ≠ '.' := fun c hc =>
    natDec_no_dot i1 c (List.mem_reverse.mp hc)
  have hnd2 : ∀ c ∈ (natDec i2).reverse, c ≠ '.' := fun c hc =>
    natDec_no_dot i2 c (List.mem_reverse.mp hc)
  obtain ⟨ha, hb⟩ := nodot_suffix_inj _ _ _ _ hnd1 hnd2 hrev
  refine ⟨?_, natDec_inj (List.reverse_injective ha)⟩
  have : n1.data = n2.data := List.reverse_injective hb
  exact congrArg String.mk this

/-! Association-list and positional-list lemmas. -/

theorem assocGet_set_self {α β : Type} [DecidableEq α] (l : List (α × β)) (k : α) (v : β) :
    assocGet (assocSet l k v) k = some v := by
  induction l with
  | nil => simp [assocGet, assocSet]
  | cons kv l ih =>
    by_cases h : k = kv.1
    · simp [assocGet, assocSet, h]
    · simp [assocGet, assocSet, h, ih]

theorem assocGet_set_ne {α β : Type} [DecidableEq α] (l : List (α × β)) (k k' : α) (v : β)
    (h : k' ≠ k) : assocGet (assocSet l k v) k' = assocGet l k' := by
  induction l with
  | nil => simp [assocGet, assocSet, h]
  | cons kv l ih =>
    by_cases hk : k = kv.1
    · subst hk
      simp [assocGet, assocSet, h]
    · by_cases hk' : k' = kv.1
      · simp [assocGet, assocSet, hk, hk']
      · simp [assocGet, assocSet, hk, hk', ih]

theorem assocSet_map_fst_of_mem {α β : Type} [DecidableEq α] (l : List (α × β)) (k : α) (v : β)
    (h : k ∈ l.map Prod.fst) : (assocSet l k v).map Prod.fst = l.map Prod.fst := by
  induction l with
  | nil => simp at h
  | cons kv l ih =>
    by_cases hk : k = kv.1
    · simp [assocSet, hk]
    · simp only [List.map_cons, List.mem_cons] at h
      rcases h with h | h
    

      · exact absurd h hk
      · simp [assocSet, hk, ih h]

theorem assocGet_mem {α β : Type} [DecidableEq α] {l : List (α × β)} {k : α} {v : β}
    (h : assocGet l k = some v) : (k, v) ∈ l := by
  induction l with
  | nil => simp [assocGet] at h
  | cons kv l ih =>
    rw [assocGet] at h
    by_cases hk : k = kv.1
    · simp only [hk, if_true] at h
      rw [Option.some_inj] at h
      have hkv : (k, v) = kv := by rw [hk, ← h]
      exact hkv ▸ List.mem_cons_self _ _
    · simp only [hk, if_false] at h
      exact List.mem_cons_of_mem _ (ih h)

theorem assocGet_eq_none_iff {α β : Type} [DecidableEq α] (l : List (α × β)) (k : α) :
    assocGet l k = none ↔ k ∉ l.map Prod.fst := by
  induction l with
  | nil => simp [assocGet]
  | cons kv l ih =>
    by_cases hk : k = kv.1
    · simp [assocGet, hk]
    · simp [assocGet, hk, ih]

theorem assocGet_of_mem_nodup {α β : Type} [DecidableEq α] {l : List (α × β)} {k : α} {v : β}
    (hn : (l.map Prod.fst).Nodup) (hm : (k, v) ∈ l) : assocGet l k = some v := by
  induction l with
  | nil => simp at hm
  | cons kv l ih =>
    simp only [List.map_cons, List.nodup_cons] at hn
    rcases List.mem_cons.mp hm with h | h
    · rw [← h, assocGet]
      simp
    · have hk : k ≠ kv.1 := by
        intro hkk
        exact hn.1 (hkk ▸ (List.mem_map.mpr ⟨(k, v), h, rfl⟩))
      rw [assocGet]
      simp [hk, ih hn.2 h]

theorem assoc_ext {α β : Type} [DecidableEq α] :
    ∀ (l1 l2 : List (α × β)), l1.map Prod.fst = l2.map Prod.fst →
      (l1.map Prod.fst).Nodup → (∀ k, assocGet l1 k = assocGet l2 k) → l1 = l2 := by
  intro l1
  induction l1 with
  | nil =>
    intro l2 hk _ _
    cases l2 with
    | nil => rfl
    | cons kv l2 => simp at hk
  | cons kv l1 ih =>
    intro l2 hk hnd hg
    cases l2 with
    | nil => simp at hk
    | cons kv2 l2 =>
      simp only [List.map_cons, List.cons.injEq] at hk
      simp only [List.map_cons, List.nodup_cons] at hnd
      have hv : kv.2 = kv2.2 := by
        have := hg kv.1
        rw [assocGet, assocGet, ← hk.1] at this
        simpa using this
      have htl : l1 = l2 := by
        refine ih l2 hk.2 hnd.2 (fun k => ?_)
        by_cases hke : k = kv.1
        · have h1 : assocGet l1 k = none :=
            (assocGet_eq_none_iff l1 k).mpr (hke ▸ hnd.1)
          have h2 : assocGet l2 k = none :=
            (assocGet_eq_none_iff l2 k).mpr (by rw [← hk.2]; exact hke ▸ hnd.1)
          rw [h1, h2]
        · have := hg k
          rw [assocGet, assocGet] at this
          simpa [hke, ← hk.1] using this
      calc kv :: l1 = (kv.1, kv.2) :: l1 := rfl
        _ = (kv2.1, kv2.2) :: l2 := by rw [hk.1, hv, htl]
        _ = kv2 :: l2 := rfl

theorem listGet_lt_length {α : Type} :
    ∀ (l : List α) (i : ℕ), i < l.length → ∃ x, listGet l i = some x := by
  intro l
  induction l with
  | nil => intro i h; simp at h
  | cons x l ih =>
    intro i h
    cases i with
    | zero => exact ⟨x, rfl⟩
    | succ j => exact ih j (by simpa using h)

theorem listGet_map {α γ : Type} (f : α → γ) :
    ∀ (l : List α) (i : ℕ), listGet (l.map f) i = (listGet l i).map f := by
  intro l
  induction l with
  | nil => intro i; simp [listGet]
  | cons x l ih =>
    intro i
    cases i with
    | zero => simp [listGet]
    | succ j => simp [listGet, ih]

theorem listModify_get_self {α : Type} (f : α → α) :
    ∀ (l : List α) (i : ℕ), listGet (listModify f l i) i = (listGet l i).map f := by
  intro l
  induction l with
  | nil => intro i; simp [listGet, listModify]
  | cons x l ih =>
    intro i
    cases i with
    | zero => simp [listGet, listModify]
    | succ j => simp [listGet, listModify, ih]

theorem listModify_get_ne {α : Type} (f : α → α) :
    ∀ (l : List α) (i j : ℕ), i ≠ j → listGet (listModify f l i) j = listGet l j := by
  intro l
  induction l with
  | nil => intro i j _; simp [listModify]
  | cons x l ih =>
    intro i j hij
    cases i with
    | zero =>
      cases j with
      | zero => exact absurd rfl hij
      | succ j2 => simp [listModify, listGet]
    | succ i2 =>
      cases j with
      | zero => simp [listModify, listGet]
      | succ j2 => simp [listModify, listGet, ih i2 j2 (by omega)]

theorem listModify_length {α : Type} (f : α → α) :
    ∀ (l : List α) (i : ℕ), (listModify f l i).length = l.length := by
  intro l
  induction l with
  | nil => intro i; simp [listModify]
  | cons x l ih =>
    intro i
    cases i with
    | zero => simp [listModify]
    | succ j => simp [listModify, ih]

theorem list_ext_listGet {α : Type} :
    ∀ (l1 l2 : List α), (∀ i, listGet l1 i = listGet l2 i) → l1 = l2 := by
  intro l1
  induction l1 with
  | nil =>
    intro l2 h
    cases l2 with
    | nil => rfl
    | cons y l2 => exact absurd (h 0) (by simp [listGet])
  | cons x l1 ih =>
    intro l2 h
    cases l2 with
    | nil => exact absurd (h 0) (by simp [listGet])
    | cons y l2 =>
      have hx : x = y := by have := h 0; simpa [listGet] using this
      rw [hx, ih l2 (fun i => h (i + 1))]

/-! Claim C8 — rejection of the unsupported optimizer kind. -/

/-- C8: calling `broadcast_optimizer_state` on the disallowed optimizer kind
(`torch.optim.LBFGS`) fails with the unsupported-optimizer error immediately,
with an empty collective-call trace — the rejection happens before any
communication, before the state dict is even read and before anything is
mutated. -/
theorem lbfgs_rejected_without_communication (o : Optimizer)
    (net : String → TensorData → Except String TensorData) (h : o.isLBFGS = true) :
    broadcast_optimizer_state o net = (.error .unsupportedOptimizer, []) := by
  simp [broadcast_optimizer_state, h]

/-- Witness for C8 at a concrete LBFGS optimizer. -/
theorem lbfgs_rejected_without_communication_witness :
    broadcast_optimizer_state exLBFGS (fun _ t => .ok t) =
      (.error .unsupportedOptimizer, []) ∧ exLBFGS.isLBFGS = true :=
  ⟨lbfgs_rejected_without_communication exLBFGS (fun _ t => .ok t) rfl, rfl⟩

/-! Claim C9 — the root rank returns the original object. -/

/-- C9: on the root rank `broadcast_object` returns the very object passed in:
the result is `objs rootRank` for every deserializer whatsoever (including one
that always fails), so no serialization round-trip of the root's object is
involved; only non-root ranks construct their result by deserializing. -/
theorem broadcast_object_root_returns_original {Obj : Type} (dump : Obj → List ℕ)
    (load : List ℕ → Option Obj) (objs : ℕ → Obj) (rootRank : ℕ) :
    broadcast_object dump load objs rootRank rootRank = some (objs rootRank) := by
  simp [broadcast_object]

/-! Claim C1 — broadcast round-trip correctness on every rank. -/

/-- C1: for every object whose serialization the codec round-trips (and whose
payload fits the signed 32-bit length prefix of the wire format), every rank's
`broadcast_object` call returns a value equal to the root rank's original
object: the root returns it directly after broadcasting length and payload,
and each non-root rank receives the length, allocates a buffer of exactly that
length, receives the payload and deserializes it. -/
theorem broadcast_object_roundtrip {Obj : Type} (dump : Obj → List ℕ)
    (load : List ℕ → Option Obj) (objs : ℕ → Obj) (rootRank r : ℕ)
    (hload : load (dump (objs rootRank)) = some (objs rootRank))
    (hlen : (dump (objs rootRank)).length < 2 ^ 31) :
    broadcast_object dump load objs rootRank r = some (objs rootRank) := by
  unfold broadcast_object
  by_cases hr : r = rootRank
  · simp [hr]
  · have hw : int32wrap ((dump (objs rootRank)).length : ℤ) =
        ((dump (objs rootRank)).length : ℤ) :=
      int32wrap_of_nonneg_lt _ (Int.natCast_nonneg _) (by exact_mod_cast hlen)
    simp [hr, hw, hload]

/-- Witness for C1 at a concrete codec and object, on a non-root rank. -/
theorem broadcast_object_roundtrip_witness :
    broadcast_object (fun n => List.replicate n 7) (fun l => some l.length)
      (fun _ => 5) 0 3 = some 5 :=
  broadcast_object_roundtrip (fun n => List.replicate n 7) (fun l => some l.length)
    (fun _ => 5) 0 3 (by simp) (by norm_num)

/-! Claim C6 — a broadcast error propagates before reconstruction. -/

/-- C6: when the batched broadcast inside `broadcast_optimizer_state` fails,
the call's outcome is exactly that error: the reconstruction callbacks are
never reached (they run only in the success branch of the batch), so no
reconstructed optimizer is produced and no partial broadcast is silently
completed. -/
theorem broadcast_failure_propagates (o : Optimizer)
    (net : String → TensorData → Except String TensorData) (e : String)
    (hl : o.isLBFGS = false)
    (hs : ((initPhase o).1.state).isEmpty = false)
    (hb : broadcast_parameters net (buildAcc (initPhase o).1).params = .error e) :
    broadcast_optimizer_state o net =
      (.error (.collectiveFailure e),
        (initPhase o).2.2 ++ (buildAcc (initPhase o).1).params.map ParamEntry.key) := by
  simp [broadcast_optimizer_state, hl, hs, hb]

/-- Witness for C6 with a collective substrate that fails every transfer. -/
theorem broadcast_failure_propagates_witness :
    broadcast_optimizer_state exOpt (fun _ _ => .error "link down") =
      (.error (.collectiveFailure "link down"),
        (initPhase exOpt).2.2 ++ (buildAcc (initPhase exOpt).1).params.map ParamEntry.key) :=
  broadcast_failure_propagates exOpt (fun _ _ => .error "link down") "link down" rfl rfl rfl

/-! Claim C7 — lazy initialization uses the undecorated update rule. -/

theorem azgApply_idem (st : OptState) (pid : Pid) (p : PInfo) :
    azgApply st pid (azgApply st pid p) = azgApply st pid p := by
  unfold azgApply
  by_cases h : p.requiresGrad && (assocGet st pid).isNone
  · simp [h]
  · simp [h]

theorem azgStep_get_self (st : OptState) (meta : List (Pid × PInfo)) (pid : Pid) :
    assocGet (azgStep st meta pid) pid = (assocGet meta pid).map (azgApply st pid) := by
  unfold azgStep
  cases h : assocGet meta pid with
  | none => simp [h]
  | some p =>
    by_cases hc : p.requiresGrad && (assocGet st pid).isNone
    · simp [h, hc, assocGet_set_self, azgApply]
    · simp [h, hc, azgApply]

theorem azgStep_get_ne (st : OptState) (meta : List (Pid × PInfo)) (pid pid2 : Pid)
    (h : pid ≠ pid2) : assocGet (azgStep st meta pid2) pid = assocGet meta pid := by
  unfold azgStep
  cases h2 : assocGet meta pid2 with
  | none => rfl
  | some p =>
    by_cases hc : p.requiresGrad && (assocGet st pid2).isNone
    · simp [hc, assocGet_set_ne _ _ _ _ h]
    · simp [hc]

theorem azg_pids_get (st : OptState) :
    ∀ (pids : List Pid) (meta : List (Pid × PInfo)) (pid : Pid),
      assocGet (pids.foldl (azgStep st) meta) pid =
        if pid ∈ pids then (assocGet meta pid).map (azgApply st pid)
        else assocGet meta pid := by
  intro pids
  induction pids with
  | nil => intro meta pid; simp
  | cons pid2 pids ih =>
    intro meta pid
    rw [List.foldl_cons, ih]
    by_cases hm : pid ∈ pids
    · by_cases he : pid = pid2
      · subst he
        rw [azgStep_get_self]
        simp only [List.mem_cons, true_or, if_true, hm, if_true]
        cases assocGet meta pid with
        | none => rfl
        | some p => simp [azgApply_idem]
      · rw [azgStep_get_ne st meta pid pid2 he]
        simp [hm]
    · by_cases he : pid = pid2
      · subst he
        rw [azgStep_get_self]
        simp [hm]
      · rw [azgStep_get_ne st meta pid pid2 he]
        simp [hm, he]

theorem assignZeroGrads_get (st : OptState) :
    ∀ (groups : List ParamGroup) (meta : List (Pid × PInfo)) (pid : Pid),
      assocGet (assignZeroGrads st groups meta) pid =
        if pid ∈ (groups.map ParamGroup.params).flatten then
          (assocGet meta pid).map (azgApply st pid)
        else assocGet meta pid := by
  intro groups
  induction groups with
  | nil => intro meta pid; simp [assignZeroGrads]
  | cons g gs ih =>
    intro meta pid
    have hstep : assignZeroGrads st (g :: gs) meta =
        assignZeroGrads st gs (g.params.foldl (azgStep st) meta) := rfl
    rw [hstep, ih, azg_pids_get]
    by_cases hm : pid ∈ (gs.map ParamGroup.params).flatten
    · by_cases he : pid ∈ g.params
      · simp only [List.map_cons, List.flatten_cons, List.mem_append, he, hm, if_true, true_or,
          or_true]
        cases assocGet meta pid with
        | none => rfl
        | some p => simp [azgApply_idem]
      · simp [he, hm]
    · by_cases he : pid ∈ g.params
      · simp [he, hm]
      · simp [he, hm]

theorem azgApply_empty_state (pid : Pid) (p : PInfo) : azgApply [] pid p = zeroIfReq p := by
  simp [azgApply, zeroIfReq, assocGet]

/-- C7: on an optimizer whose per-parameter state is empty,
`broadcast_optimizer_state`'s initialization pass assigns a zero gradient to
exactly the group parameters that require gradients, invokes exactly one
optimization step — always the undecorated base update rule, never a
distributed wrapper's rule, so no collective call is issued — and re-reads the
state the step materialized. -/
theorem lazy_init_uses_base_rule (o : Optimizer) (h : o.state = []) :
    (initPhase o).2.1 = [.baseRuleStep] ∧
    (initPhase o).2.2 = [] ∧
    (initPhase o).1.state = o.stepState ∧
    (∀ pid, assocGet (initPhase o).1.pmeta pid =
      if pid ∈ groupPidsOf o then (assocGet o.pmeta pid).map zeroIfReq
      else assocGet o.pmeta pid) := by
  refine ⟨?_, ?_, ?_, ?_⟩
  · rw [initPhase]
    by_cases hd : o.isDistributed <;> simp [h, hd, parentClassStep, optStep]
  · rw [initPhase]
    by_cases hd : o.isDistributed <;> simp [h, hd, parentClassStep, optStep]
  · rw [initPhase]
    by_cases hd : o.isDistributed <;> simp [h, hd, parentClassStep, optStep]
  · intro pid
    have hp : (initPhase o).1.pmeta = assignZeroGrads o.state o.paramGroups o.pmeta := by
      rw [initPhase]
      by_cases hd : o.isDistributed <;> simp [h, hd, parentClassStep, optStep]
    rw [hp, h, assignZeroGrads_get]
    unfold groupPidsOf
    by_cases hm : pid ∈ (o.paramGroups.map ParamGroup.params).flatten
    · simp only [hm, if_true]
      cases assocGet o.pmeta pid with
      | none => rfl
      | some p => simp [azgApply_empty_state]
    · simp [hm]

/-- Witness for C7 at a concrete distributed-wrapped optimizer with empty
state: one step of the base rule, no collective call, the frozen parameter
keeps no gradient and the trainable one gets a zero gradient. -/
theorem lazy_init_uses_base_rule_witness :
    (initPhase exInit).2.1 = [.baseRuleStep] ∧
    (initPhase exInit).2.2 = [] ∧
    (initPhase exInit).1.state = exInit.stepState ∧
    assocGet (initPhase exInit).1.pmeta 0 = some ⟨true, 2, some [0, 0]⟩ ∧
    assocGet (initPhase exInit).1.pmeta 1 = some ⟨false, 3, none⟩ := by
  obtain ⟨h1, h2, h3, h4⟩ := lazy_init_uses_base_rule exInit rfl
  refine ⟨h1, h2, h3, ?_, ?_⟩
  · rw [h4 0]
    decide
  · rw [h4 1]
    decide

/-! Claim C10 — parameters owning no state are skipped entirely. -/

theorem procPids_filter_stateless (st : OptState) :
    ∀ (pids : List Pid) (acc : BuildAcc),
      procPids st (pids.filter (fun pid => (assocGet st pid).isSome)) acc =
        procPids st pids acc := by
  intro pids
  induction pids with
  | nil => intro acc; rfl
  | cons pid pids ih =>
    intro acc
    cases h : assocGet st pid with
    | none =>
      have hf : (pid :: pids).filter (fun pid => (assocGet st pid).isSome) =
          pids.filter (fun pid => (assocGet st pid).isSome) := by
        simp [List.filter_cons, h]
      rw [hf, ih]
      show procPids st pids acc = procPids st (pid :: pids) acc
      unfold procPids
      rw [List.foldl_cons, h]
    | some fields =>
      have hf : (pid :: pids).filter (fun pid => (assocGet st pid).isSome) =
          pid :: pids.filter (fun pid => (assocGet st pid).isSome) := by
        simp [List.filter_cons, h]
      rw [hf]
      show procPids st (pid :: pids.filter fun pid => (assocGet st pid).isSome) acc =
        procPids st (pid :: pids) acc
      unfold procPids
      rw [List.foldl_cons, List.foldl_cons, h]
      exact ih (procFields pid fields acc)

theorem procGroups_filter_stateless (st : OptState) :
    ∀ (gs : List ParamGroup) (index : ℕ) (acc : BuildAcc),
      procGroups st (gs.map (fun g =>
        { g with params := g.params.filter (fun pid => (assocGet st pid).isSome) })) index acc =
        procGroups st gs index acc := by
  intro gs
  induction gs with
  | nil => intro index acc; rfl
  | cons g gs ih =>
    intro index acc
    rw [List.map_cons, procGroups, procGroups, procPids_filter_stateless, ih]

/-- C10: every parameter identifier in a parameter group without an entry in
the optimizer's state dict is skipped by `broadcast_optimizer_state`'s batch
builder: removing all such identifiers from the groups changes neither the
accumulated batch (no key, no tensor, no alias) nor the callbacks dict nor the
occurrence counters, while all parameters that do own state are processed
identically. -/
theorem stateless_pid_frame (o : Optimizer) : buildAcc (pruneStateless o) = buildAcc o := by
  unfold buildAcc pruneStateless
  exact procGroups_filter_stateless o.state o.paramGroups 0 ⟨[], [], []⟩

/-! Claim C4 — flattening through the recorded type signature is lossless. -/

mutual

/-- C4: for every supported non-tensor value (a scalar or nested container of
scalars whose leaves are fixed points of their own type constructors),
applying `_recursive_cast` to the flattened representation with the signature
computed by `_get_types` returns the original value:
`reconstruct(flatten(v), signature(v)) == v`. -/
theorem recursive_cast_roundtrip :
    ∀ (v : Value), wfValue v = true → recursive_cast (flattenV v) (get_types v) = some v
  | .vscalar ty q, h => by
    have hq : castTy ty q = q := by simpa [wfValue] using h
    simp [flattenV, get_types, recursive_cast, hq]
  | .vcont c l, h => by
    have hl : recursiveCastList (flattenVList l) (getTypesList l) = some l :=
      recursive_cast_roundtrip_list l (by simpa [wfValue] using h)
    simp [flattenV, get_types, recursive_cast, hl]

/-- List version of the C4 round-trip, for the children of a container. -/
theorem recursive_cast_roundtrip_list :
    ∀ (l : List Value), wfValueList l = true →
      recursiveCastList (flattenVList l) (getTypesList l) = some l
  | [], _ => by simp [flattenVList, getTypesList, recursiveCastList]
  | v :: l, h => by
    have h2 : wfValue v = true ∧ wfValueList l = true := by
      simpa [wfValueList, Bool.and_eq_true] using h
    simp [flattenVList, getTypesList, recursiveCastList,
      recursive_cast_roundtrip v h2.1, recursive_cast_roundtrip_list l h2.2]

end

/-- Witness for C4 at a concrete nested value (a tuple holding a float, and a
list holding an int and a bool). -/
theorem recursive_cast_roundtrip_witness :
    wfValue (.vcont .ctyTuple [.vscalar .tyFloat (mkRat 9 10),
      .vcont .ctyList [.vscalar .tyInt 3, .vscalar .tyBool 1]]) = true ∧
    recursive_cast
      (flattenV (.vcont .ctyTuple [.vscalar .tyFloat (mkRat 9 10),
        .vcont .ctyList [.vscalar .tyInt 3, .vscalar .tyBool 1]]))
      (get_types (.vcont .ctyTuple [.vscalar .tyFloat (mkRat 9 10),
        .vcont .ctyList [.vscalar .tyInt 3, .vscalar .tyBool 1]])) =
      some (.vcont .ctyTuple [.vscalar .tyFloat (mkRat 9 10),
        .vcont .ctyList [.vscalar .tyInt 3, .vscalar .tyBool 1]]) :=
  ⟨by decide, recursive_cast_roundtrip _ (by decide)⟩

/-! Claim C2 — allgather ordering and prefix-sum partitioning. -/

theorem listGet_eq_get? {α : Type} : ∀ (l : List α) (i : ℕ), listGet l i = l.get? i := by
  intro l
  induction l with
  | nil => intro i; cases i <;> simp [listGet]
  | cons x l ih =>
    intro i
    cases i with
    | zero => simp [listGet]
    | succ j => simp [listGet, ih]

theorem wrapSum_go (l : List ℤ) :
    ∀ (acc : ℤ), 0 ≤ acc → acc + l.sum < 2 ^ 31 → (∀ x ∈ l, 0 ≤ x) →
      l.foldl (fun a s => int32wrap (a + s)) acc = acc + l.sum := by
  induction l with
  | nil => intro acc _ _ _; simp
  | cons x xs ih =>
    intro acc hacc hsum hnn
    have hx : 0 ≤ x := hnn x (by simp)
    have hxs : 0 ≤ xs.sum := List.sum_nonneg (fun y hy => hnn y (by simp [hy]))
    have hw : int32wrap (acc + x) = acc + x := by
      refine int32wrap_of_nonneg_lt _ (by omega) ?_
      have : acc + x ≤ acc + (x :: xs).sum := by
        simp only [List.sum_cons]
        omega
      omega
    rw [List.foldl_cons, hw, ih (acc + x) (by omega)
      (by simp only [List.sum_cons] at hsum; omega) (fun y hy => hnn y (by simp [hy]))]
    simp only [List.sum_cons]
    ring

theorem wrapSum_eq_sum (l : List ℤ) (hnn : ∀ x ∈ l, 0 ≤ x) (hs : l.sum < 2 ^ 31) :
    wrapSum l = l.sum := by
  have := wrapSum_go l 0 le_rfl (by omega) hnn
  simpa [wrapSum] using this

theorem intCast_listSum : ∀ (l : List ℕ), (l.map (fun n : ℕ => (n : ℤ))).sum = (l.sum : ℤ) := by
  intro l
  induction l with
  | nil => simp
  | cons x xs ih => simp only [List.map_cons, List.sum_cons, ih, Nat.cast_add]

theorem take_succ_sum : ∀ (l : List ℕ) (i : ℕ), ∀ h : i < l.length,
    (l.take (i + 1)).sum = (l.take i).sum + l[i] := by
  intro l
  induction l with
  | nil => intro i h; simp at h
  | cons x xs ih =>
    intro i h
    cases i with
    | zero => simp
    | succ j =>
      have := ih j (by simpa using h)
      simp only [List.take_succ_cons, List.sum_cons, this, List.getElem_cons_succ]
      omega

theorem flatten_segment {α : Type} : ∀ (L : List (List α)) (i : ℕ), ∀ h : i < L.length,
    ((L.flatten.drop ((L.map List.length).take i).sum).take L[i].length) = L[i] := by
  intro L
  induction L with
  | nil => intro i h; simp at h
  | cons d L ih =>
    intro i h
    cases i with
    | zero => simp [List.take_left]
    | succ j =>
      have hj : j < L.length := by simpa using h
      have := ih j hj
      simp only [List.map_cons, List.take_succ_cons, List.sum_cons, List.flatten_cons,
        List.getElem_cons_succ]
      rw [List.drop_append ((List.take j (List.map List.length L)).sum)]
      exact this

/-- C2: for every world size and every choice of one codec-round-tripping
object per rank (with total payload within the 32-bit size arithmetic),
`allgather_object` returns a list of length `world_size` whose entry `i`
equals rank `i`'s original object: the prefix-sum partition
`start_i = sum(sizes[:i])`, `end_i = start_i + sizes[i]` of the concatenated
buffer recovers exactly rank `i`'s serialized bytes, which deserialize to its
object. -/
theorem allgather_object_ordering {Obj : Type} (dump : Obj → List ℕ)
    (load : List ℕ → Option Obj) (objs : List Obj)
    (hload : ∀ o ∈ objs, load (dump o) = some o)
    (hlen : ((objs.map dump).map List.length).sum < 2 ^ 31) :
    (allgather_object dump load objs).length = objs.length ∧
    ∀ i, ∀ h : i < objs.length,
      listGet (allgather_object dump load objs) i = some (some (objs[i])) := by
  constructor
  · simp [allgather_object]
  intro i hi
  have hiA : i < (objs.map dump).length := by simpa using hi
  have hsz : (objs.map dump).map (fun d => int32wrap (d.length : ℤ)) =
      (objs.map dump).map (fun d : List ℕ => (d.length : ℤ)) := by
    refine List.map_congr_left (fun d hd => ?_)
    have hle : d.length ≤ ((objs.map dump).map List.length).sum :=
      List.single_le_sum (fun x _ => Nat.zero_le x) _ (List.mem_map.mpr ⟨d, hd, rfl⟩)
    refine int32wrap_of_nonneg_lt _ (Int.natCast_nonneg _) ?_
    exact_mod_cast lt_of_le_of_lt hle hlen
  have hcast : ∀ (A : List (List ℕ)) (j : ℕ), ((A.map (fun d : List ℕ => (d.length : ℤ))).take j) =
      (((A.map List.length).take j).map (fun n : ℕ => (n : ℤ))) := by
    intro A j
    rw [← List.map_take, ← List.map_take, List.map_map]
    exact List.map_congr_left (fun d _ => rfl)
  have hsumtake : ∀ j, (((objs.map dump).map List.length).take j).sum ≤
      ((objs.map dump).map List.length).sum := by
    intro j
    conv_rhs => rw [← List.take_append_drop j ((objs.map dump).map List.length)]
    rw [List.sum_append]
    omega
  have hstart : wrapSum (((objs.map dump).map (fun d => int32wrap (d.length : ℤ))).take i) =
      ((((objs.map dump).map List.length).take i).sum : ℤ) := by
    rw [hsz, hcast (objs.map dump) i, wrapSum_eq_sum, intCast_listSum]
    · intro x hx
      obtain ⟨n, _, rfl⟩ := List.mem_map.mp hx
      exact Int.natCast_nonneg n
    · rw [intCast_listSum]
      exact_mod_cast lt_of_le_of_lt (hsumtake i) hlen
  have hgetsz : listGet ((objs.map dump).map (fun d => int32wrap (d.length : ℤ))) i =
      some (((objs.map dump)[i].length : ℤ)) := by
    rw [hsz, listGet_eq_get?, List.get?_eq_getElem?,
      List.getElem?_eq_getElem (by simpa using hiA)]
    simp
  have hsucc : (((objs.map dump).map List.length).take (i + 1)).sum =
      (((objs.map dump).map List.length).take i).sum + (objs.map dump)[i].length := by
    have := take_succ_sum ((objs.map dump).map List.length) i (by simpa using hiA)
    simpa [List.getElem_map] using this
  have hstop : int32wrap (((((objs.map dump).map List.length).take i).sum : ℤ) +
      ((objs.map dump)[i].length : ℤ)) =
      (((((objs.map dump).map List.length).take i).sum + (objs.map dump)[i].length : ℕ) : ℤ) := by
    rw [← Nat.cast_add]
    refine int32wrap_of_nonneg_lt _ (Int.natCast_nonneg _) ?_
    have hb : (((objs.map dump).map List.length).take i).sum + (objs.map dump)[i].length ≤
        ((objs.map dump).map List.length).sum := by
      rw [← hsucc]
      exact hsumtake (i + 1)
    exact_mod_cast lt_of_le_of_lt hb hlen
  have hdiff : ((((((objs.map dump).map List.length).take i).sum +
      (objs.map dump)[i].length : ℕ)) : ℤ) - ((((objs.map dump).map List.length).take i).sum : ℤ) =
      ((objs.map dump)[i].length : ℤ) := by
    push_cast
    ring
  have hseg := flatten_segment (objs.map dump) i hiA
  rw [listGet_eq_get?]
  simp only [allgather_object]
  rw [List.get?_map, List.get?_range hi, Option.map_some']
  simp only [hstart, hgetsz, Option.getD_some, hstop, hdiff, Int.toNat_natCast]
  rw [hseg, List.getElem_map]
  rw [hload objs[i] (List.getElem_mem hi)]

/-- Witness for C2 at world size 3 with serialized lengths `[3, 0, 7]` (the
partition boundaries of the spec's size-prefix example). -/
theorem allgather_object_ordering_witness :
    listGet (allgather_object (fun n => List.replicate n 9) (fun l => some l.length)
      [3, 0, 7]) 0 = some (some 3) ∧
    listGet (allgather_object (fun n => List.replicate n 9) (fun l => some l.length)
      [3, 0, 7]) 1 = some (some 0) ∧
    listGet (allgather_object (fun n => List.replicate n 9) (fun l => some l.length)
      [3, 0, 7]) 2 = some (some 7) ∧
    (allgather_object (fun n => List.replicate n 9) (fun l => some l.length)
      [3, 0, 7]).length = 3 := by
  have h := allgather_object_ordering (fun n => List.replicate n 9) (fun l => some l.length)
    [3, 0, 7] (by decide) (by decide)
  exact ⟨h.2 0 (by norm_num), h.2 1 (by norm_num), h.2 2 (by norm_num), h.1⟩

/-! Claim C3 — uniqueness of the accumulated broadcast keys. -/

/-- Counterexample to C3 as stated: on `exCollide` — an optimizer whose
second parameter group carries a hyperparameter named `foo` while a state
field is also named `foo` — the option key `'foo.1'` (option `foo` of group
index 1) equals the state-field key `'foo.1'` (first occurrence of field
`foo`), so the keys of one batch are not pairwise distinct. -/
theorem broadcast_keys_collide :
    ¬ ((buildAcc exCollide).params.map ParamEntry.key).Nodup := by decide

/-! Lemmas for the batch-building invariant. -/

theorem nodup_append_single {α : Type} {l : List α} {a : α} (h : l.Nodup) (ha : a ∉ l) :
    (l ++ [a]).Nodup := by
  rw [List.nodup_append]
  exact ⟨h, List.nodup_singleton a, by simpa [List.disjoint_cons_right] using ha⟩

theorem assocSet_eq_append {α β : Type} [DecidableEq α] :
    ∀ (l : List (α × β)) (k : α) (v : β), k ∉ l.map Prod.fst →
      assocSet l k v = l ++ [(k, v)] := by
  intro l
  induction l with
  | nil => intro k v _; rfl
  | cons kv l ih =>
    intro k v hk
    simp only [List.map_cons, List.mem_cons] at hk
    push_neg at hk
    rw [assocSet, if_neg hk.1, ih k v hk.2, List.cons_append]

theorem getOcc_set_self (occ : List (String × ℕ)) (nm : String) (c : ℕ) :
    getOcc (assocSet occ nm c) nm = c := by
  simp [getOcc, assocGet_set_self]

theorem getOcc_set_ne (occ : List (String × ℕ)) (nm nm' : String) (c : ℕ) (h : nm' ≠ nm) :
    getOcc (assocSet occ nm c) nm' = getOcc occ nm' := by
  simp [getOcc, assocGet_set_ne _ _ _ _ h]

theorem listGet_mem {α : Type} : ∀ (l : List α) (i : ℕ) (x : α), listGet l i = some x → x ∈ l := by
  intro l
  induction l with
  | nil => intro i x h; simp [listGet] at h
  | cons y l ih =>
    intro i x h
    cases i with
    | zero =>
      rw [listGet, Option.some_inj] at h
      exact h ▸ List.mem_cons_self y l
    | succ j => exact List.mem_cons_of_mem _ (ih j x h)

theorem KeyShape_mono_done {o : Optimizer} {bound : ℕ} {done done' : List String}
    {occ : List (String × ℕ)} {key : String} (hsub : ∀ x ∈ done, x ∈ done')
    (h : KeyShape o bound done occ key) : KeyShape o bound done' occ key := by
  rcases h with ⟨k, j, hk, hmem, hj | ⟨hj, hd⟩⟩ | h
  · exact Or.inl ⟨k, j, hk, hmem, Or.inl hj⟩
  · exact Or.inl ⟨k, j, hk, hmem, Or.inr ⟨hj, hsub k hd⟩⟩
  · exact Or.inr h

theorem KeyShape_mono_occ {o : Optimizer} {bound : ℕ} {done : List String}
    {occ occ' : List (String × ℕ)} {key : String}
    (hmono : ∀ nm, getOcc occ nm ≤ getOcc occ' nm)
    (h : KeyShape o bound done occ key) : KeyShape o bound done occ' key := by
  rcases h with h | ⟨nm, c, hk, hmem, hc1, hc2⟩
  · exact Or.inl h
  · exact Or.inr ⟨nm, c, hk, hmem, hc1, le_trans hc2 (hmono nm)⟩

theorem KeyShape_next_group {o : Optimizer} {bound : ℕ} {done : List String}
    {occ : List (String × ℕ)} {key : String} (h : KeyShape o bound done occ key) :
    KeyShape o (bound + 1) [] occ key := by
  rcases h with ⟨k, j, hk, hmem, hj | ⟨hj, _⟩⟩ | h
  · exact Or.inl ⟨k, j, hk, hmem, Or.inl (by omega)⟩
  · exact Or.inl ⟨k, j, hk, hmem, Or.inl (by omega)⟩
  · exact Or.inr h

theorem EntryIs_stable {o : Optimizer} {cbs cbs' : List (String × CB)} {e : ParamEntry}
    {sd : SlotDesc} (h : EntryIs o cbs e sd)
    (hst : assocGet cbs' e.key = assocGet cbs e.key) : EntryIs o cbs' e sd := by
  cases sd with
  | optSlot index k v =>
    obtain ⟨h1, h2, h3, h4⟩ := h
    exact ⟨h1, h2, hst ▸ h3, h4⟩
  | scalarSlot pid nm ty q =>
    obtain ⟨h1, h2, h3, h4⟩ := h
    exact ⟨h1, h2, hst ▸ h3, h4⟩
  | tensorSlot pid nm t =>
    obtain ⟨h1, h2, h3, h4⟩ := h
    exact ⟨h1, h2, hst ▸ h3, h4⟩

theorem procOptions_inv (o : Optimizer) (g : ParamGroup) (bound : ℕ)
    (hg : listGet o.paramGroups bound = some g)
    (hdisj : ∀ nm ∈ optionNamesOf o, nm ∉ fieldNamesOf o) :
    ∀ (opts : List (String × Value)) (done : List String) (acc : BuildAcc),
      (∀ kv ∈ opts, kv.1 ∉ done) →
      (∀ kv ∈ opts, assocGet g.options kv.1 = some kv.2) →
      (∀ kv ∈ opts, kv.1 ∈ optionNamesOf o) →
      (opts.map Prod.fst).Nodup →
      BInv o bound done acc →
      BInv o bound (done ++ opts.map Prod.fst) (procOptions bound opts acc) ∧
      (procOptions bound opts acc).occurrences = acc.occurrences ∧
      (∀ e ∈ acc.params, e ∈ (procOptions bound opts acc).params) ∧
      (∀ key ∈ acc.params.map ParamEntry.key,
        assocGet (procOptions bound opts acc).callbacks key = assocGet acc.callbacks key) ∧
      (∀ kv ∈ opts, ∃ e ∈ (procOptions bound opts acc).params,
        EntryIs o (procOptions bound opts acc).callbacks e (.optSlot bound kv.1 kv.2)) := by
  intro opts
  induction opts with
  | nil =>
    intro done acc _ _ _ _ hinv
    refine ⟨by simpa using hinv, rfl, fun e he => he, fun k _ => rfl, fun kv hkv => absurd hkv (by simp)⟩
  | cons kv opts ih =>
    intro done acc h1 h2 h3 h4 hinv
    set key := mkKey kv.1 bound with hkeydef
    set newEntry : ParamEntry := ⟨key, .tarr [flattenV kv.2], none⟩ with hnewE
    set newCB : CB := .optionCB bound kv.1 (get_types kv.2) with hnewCB
    set acc2 : BuildAcc := ⟨acc.occurrences, acc.params ++ [newEntry],
      assocSet acc.callbacks key newCB⟩ with hacc2
    have hstep : procOptions bound (kv :: opts) acc = procOptions bound opts acc2 := by
      simp only [procOptions, List.foldl_cons]
    -- freshness of the new key among the existing batch keys
    have hfresh : key ∉ acc.params.map ParamEntry.key := by
      intro hmem
      obtain ⟨e, he, hek⟩ := List.mem_map.mp hmem
      rcases hinv.shape e he with ⟨k', j, hk', hk'mem, hj⟩ | ⟨nm, c, hnm, hnmmem, _, _⟩
      · have hkk : mkKey kv.1 bound = mkKey k' j := by
          rw [← hkeydef]
          exact hek.symm.trans hk'
        have hinj := mkKey_inj hkk
        rcases hj with hj | ⟨hj, hd⟩
        · omega
        · exact h1 kv (by simp) (hinj.1 ▸ hd)
      · have hkk : mkKey kv.1 bound = mkKey nm c := by
          rw [← hkeydef]
          exact hek.symm.trans hnm
        have hinj := mkKey_inj hkk
        exact hdisj kv.1 (h3 kv (by simp)) (hinj.1 ▸ hnmmem)
    have hfreshCb : key ∉ acc.callbacks.map Prod.fst := by
      intro hmem
      obtain ⟨kc, hkc, hkk⟩ := List.mem_map.mp hmem
      exact hfresh (hkk ▸ hinv.cbsSub kc hkc)
    have hstab2 : ∀ k ∈ acc.params.map ParamEntry.key,
        assocGet acc2.callbacks k = assocGet acc.callbacks k := by
      intro k hk
      have : k ≠ key := fun h => hfresh (h ▸ hk)
      exact assocGet_set_ne _ _ _ _ this
    have hinv2 : BInv o bound (done ++ [kv.1]) acc2 := by
      refine ⟨?_, ?_, ?_, ?_⟩
      · simpa using nodup_append_single hinv.nodup hfresh
      · intro e he
        rcases List.mem_append.mp he with he | he
        · exact KeyShape_mono_done (fun x hx => by simp [hx]) (hinv.shape e he)
        · have : e = newEntry := by simpa using he
          subst this
          exact Or.inl ⟨kv.1, bound, rfl, h3 kv (by simp), Or.inr ⟨rfl, by simp⟩⟩
      · intro kc hkc
        rw [hacc2] at hkc
        simp only at hkc
        rw [assocSet_eq_append acc.callbacks key newCB hfreshCb] at hkc
        rcases List.mem_append.mp hkc with hkc | hkc
        · have := hinv.cbsSub kc hkc
          simp only [hacc2, List.map_append]
          exact List.mem_append.mpr (Or.inl this)
        · have : kc = (key, newCB) := by simpa using hkc
          subst this
          simp [hacc2, hnewE]
      · intro e he
        rcases List.mem_append.mp he with he | he
        · obtain ⟨sd, hsd⟩ := hinv.sound e he
          exact ⟨sd, EntryIs_stable hsd (hstab2 e.key (List.mem_map.mpr ⟨e, he, rfl⟩))⟩
        · have : e = newEntry := by simpa using he
          subst this
          refine ⟨.optSlot bound kv.1 kv.2, rfl, rfl, ?_, ⟨g, hg, h2 kv (by simp)⟩⟩
          show assocGet acc2.callbacks newEntry.key = some newCB
          exact assocGet_set_self _ _ _
    have h1' : ∀ kv' ∈ opts, kv'.1 ∉ done ++ [kv.1] := by
      intro kv' hkv' hmem
      rcases List.mem_append.mp hmem with hd | hd
      · exact h1 kv' (by simp [hkv']) hd
      · have : kv'.1 = kv.1 := by simpa using hd
        have hnin : kv.1 ∉ opts.map Prod.fst := (List.nodup_cons.mp h4).1
        exact hnin (this ▸ List.mem_map.mpr ⟨kv', hkv', rfl⟩)
    obtain ⟨ihinv, ihocc, ihmono, ihstab, ihcov⟩ := ih (done ++ [kv.1]) acc2 h1'
      (fun kv' h => h2 kv' (by simp [h])) (fun kv' h => h3 kv' (by simp [h]))
      (List.nodup_cons.mp h4).2 hinv2
    have hkeymem2 : ∀ k ∈ acc.params.map ParamEntry.key, k ∈ acc2.params.map ParamEntry.key := by
      intro k hk
      simp only [hacc2, List.map_append]
      exact List.mem_append.mpr (Or.inl hk)
    refine ⟨?_, ?_, ?_, ?_, ?_⟩
    · rw [hstep]
      have : done ++ (kv :: opts).map Prod.fst = (done ++ [kv.1]) ++ opts.map Prod.fst := by
        simp
    

      exact this ▸ ihinv
    · rw [hstep, ihocc]
    · intro e he
      rw [hstep]
      exact ihmono e (by simp [hacc2, he])
    · intro k hk
      rw [hstep, ihstab k (hkeymem2 k hk), hstab2 k hk]
    · intro kv' hkv'
      rcases List.mem_cons.mp hkv' with rfl | hkv'
      · have hne : newEntry ∈ acc2.params := by simp [hacc2]
        have hkeyne : newEntry.key ∈ acc2.params.map ParamEntry.key :=
          List.mem_map.mpr ⟨newEntry, hne, rfl⟩
        have hEI : EntryIs o acc2.callbacks newEntry (.optSlot bound kv'.1 kv'.2) := by
          refine ⟨rfl, rfl, ?_, ⟨g, hg, h2 kv' (by simp)⟩⟩
          show assocGet acc2.callbacks newEntry.key = some newCB
          exact assocGet_set_self _ _ _
        rw [hstep]
        exact ⟨newEntry, ihmono newEntry hne,
          EntryIs_stable hEI (ihstab newEntry.key hkeyne)⟩
      · rw [hstep]
        exact ihcov kv' hkv'

theorem procFields_inv (o : Optimizer) (pid : Pid) (allfs : List (String × Entry))
    (hpid : assocGet o.state pid = some allfs)
    (hdisj : ∀ nm ∈ optionNamesOf o, nm ∉ fieldNamesOf o) :
    ∀ (fs : List (String × Entry)) (bound : ℕ) (done : List String) (acc : BuildAcc),
      (∀ ne ∈ fs, assocGet allfs ne.1 = some ne.2) →
      (∀ ne ∈ fs, ne.1 ∈ fieldNamesOf o) →
      BInv o bound done acc →
      BInv o bound done (procFields pid fs acc) ∧
      (∀ nm, getOcc acc.occurrences nm ≤ getOcc (procFields pid fs acc).occurrences nm) ∧
      (∀ e ∈ acc.params, e ∈ (procFields pid fs acc).params) ∧
      (∀ key ∈ acc.params.map ParamEntry.key,
        assocGet (procFields pid fs acc).callbacks key = assocGet acc.callbacks key) ∧
      (∀ ne ∈ fs, ∃ e ∈ (procFields pid fs acc).params,
        EntryIs o (procFields pid fs acc).callbacks e (fieldSlotDesc pid ne)) := by
  intro fs
  induction fs with
  | nil =>
    intro bound done acc _ _ hinv
    exact ⟨hinv, fun nm => le_rfl, fun e he => he, fun k _ => rfl,
      fun ne hne => absurd hne (by simp)⟩
  | cons ne fs ih =>
    intro bound done acc h1 h2 hinv
    obtain ⟨nm, ent⟩ := ne
    set c := getOcc acc.occurrences nm + 1 with hcdef
    set occ2 := assocSet acc.occurrences nm c with hocc2
    set key := mkKey nm c with hkeydef
    have hnmfield : nm ∈ fieldNamesOf o := h2 (nm, ent) (by simp)
    have hfresh : key ∉ acc.params.map ParamEntry.key := by
      intro hmem
      obtain ⟨e, he, hek⟩ := List.mem_map.mp hmem
      rcases hinv.shape e he with ⟨k', j, hk', hk'mem, _⟩ | ⟨nm', c', hnm, _, _, hc2⟩
      · have hkk : mkKey nm c = mkKey k' j := by
          rw [← hkeydef]
          exact hek.symm.trans hk'
        have hinj := mkKey_inj hkk
        exact hdisj k' hk'mem (hinj.1 ▸ hnmfield)
      · have hkk : mkKey nm c = mkKey nm' c' := by
          rw [← hkeydef]
          exact hek.symm.trans hnm
        have hinj := mkKey_inj hkk
        rw [← hinj.1] at hc2
        omega
    have hoccmono2 : ∀ nm', getOcc acc.occurrences nm' ≤ getOcc occ2 nm' := by
      intro nm'
      by_cases h : nm' = nm
      · subst h
        rw [hocc2, getOcc_set_self]
        omega
      · rw [hocc2, getOcc_set_ne _ _ _ _ h]
    have hslot : stateSlotIs o pid nm ent := ⟨allfs, hpid, h1 (nm, ent) (by simp)⟩
    cases ent with
    | tensorE t =>
      set newEntry : ParamEntry := ⟨key, t, some (pid, nm)⟩ with hnewE
      set acc2 : BuildAcc := ⟨occ2, acc.params ++ [newEntry], acc.callbacks⟩ with hacc2
      have hstep : procFields pid ((nm, .tensorE t) :: fs) acc = procFields pid fs acc2 := by
        simp only [procFields, List.foldl_cons]
      have hlookup : assocGet acc2.callbacks newEntry.key = none := by
        rw [assocGet_eq_none_iff]
        intro hmem
        obtain ⟨kc, hkc, hkk⟩ := List.mem_map.mp hmem
        exact hfresh ((show kc.1 = key from hkk) ▸ hinv.cbsSub kc hkc)
      have hEInew : EntryIs o acc2.callbacks newEntry (.tensorSlot pid nm t) :=
        ⟨rfl, rfl, hlookup, hslot⟩
      have hinv2 : BInv o bound done acc2 := by
        refine ⟨?_, ?_, ?_, ?_⟩
        · simpa using nodup_append_single hinv.nodup hfresh
        · intro e he
          rcases List.mem_append.mp he with he | he
          · exact KeyShape_mono_occ hoccmono2 (hinv.shape e he)
          · have : e = newEntry := by simpa using he
            subst this
            refine Or.inr ⟨nm, c, rfl, hnmfield, by omega, ?_⟩
            have hgo : getOcc occ2 nm = c := by rw [hocc2, getOcc_set_self]
            show c ≤ getOcc occ2 nm
            omega
        · intro kc hkc
          have := hinv.cbsSub kc hkc
          simp only [hacc2, List.map_append]
          exact List.mem_append.mpr (Or.inl this)
        · intro e he
          rcases List.mem_append.mp he with he | he
          · obtain ⟨sd, hsd⟩ := hinv.sound e he
            exact ⟨sd, hsd⟩
          · have : e = newEntry := by simpa using he
            subst this
            exact ⟨.tensorSlot pid nm t, hEInew⟩
      obtain ⟨ihinv, ihocc, ihmono, ihstab, ihcov⟩ := ih bound done acc2
        (fun ne h => h1 ne (by simp [h])) (fun ne h => h2 ne (by simp [h])) hinv2
      have hkeymem2 : ∀ k ∈ acc.params.map ParamEntry.key,
          k ∈ acc2.params.map ParamEntry.key := by
        intro k hk
        simp only [hacc2, List.map_append]
        exact List.mem_append.mpr (Or.inl hk)
      refine ⟨by rw [hstep]; exact ihinv, ?_, ?_, ?_, ?_⟩
      · intro nm'
        rw [hstep]
        exact le_trans (hoccmono2 nm') (ihocc nm')
      · intro e he
        rw [hstep]
        exact ihmono e (by simp [hacc2, he])
      · intro k hk
        rw [hstep]
        exact ihstab k (hkeymem2 k hk)
      · intro ne hne
        rcases List.mem_cons.mp hne with rfl | hne
        · have hne2 : newEntry ∈ acc2.params := by simp [hacc2]
          have hkeyne : newEntry.key ∈ acc2.params.map ParamEntry.key :=
            List.mem_map.mpr ⟨newEntry, hne2, rfl⟩
          rw [hstep]
          exact ⟨newEntry, ihmono newEntry hne2,
            EntryIs_stable hEInew (ihstab newEntry.key hkeyne)⟩
        · rw [hstep]
          exact ihcov ne hne
    | scalarE ty q =>
      set newEntry : ParamEntry := ⟨key, .tarr [.tnum q], none⟩ with hnewE
      set newCB : CB := .stateCB pid nm ty with hnewCB
      set acc2 : BuildAcc := ⟨occ2, acc.params ++ [newEntry],
        assocSet acc.callbacks key newCB⟩ with hacc2
      have hstep : procFields pid ((nm, .scalarE ty q) :: fs) acc = procFields pid fs acc2 := by
        simp only [procFields, List.foldl_cons]
      have hfreshCb : key ∉ acc.callbacks.map Prod.fst := by
        intro hmem
        obtain ⟨kc, hkc, hkk⟩ := List.mem_map.mp hmem
        exact hfresh (hkk ▸ hinv.cbsSub kc hkc)
      have hstab2 : ∀ k ∈ acc.params.map ParamEntry.key,
          assocGet acc2.callbacks k = assocGet acc.callbacks k := by
        intro k hk
        have : k ≠ key := fun h => hfresh (h ▸ hk)
        exact assocGet_set_ne _ _ _ _ this
      have hEInew : EntryIs o acc2.callbacks newEntry (.scalarSlot pid nm ty q) := by
        refine ⟨rfl, rfl, ?_, hslot⟩
        show assocGet acc2.callbacks newEntry.key = some newCB
        exact assocGet_set_self _ _ _
      have hinv2 : BInv o bound done acc2 := by
        refine ⟨?_, ?_, ?_, ?_⟩
        · simpa using nodup_append_single hinv.nodup hfresh
        · intro e he
          rcases List.mem_append.mp he with he | he
          · exact KeyShape_mono_occ hoccmono2 (hinv.shape e he)
          · have : e = newEntry := by simpa using he
            subst this
            refine Or.inr ⟨nm, c, rfl, hnmfield, by omega, ?_⟩
            have hgo : getOcc occ2 nm = c := by rw [hocc2, getOcc_set_self]
            show c ≤ getOcc occ2 nm
            omega
        · intro kc hkc
          rw [hacc2] at hkc
          simp only at hkc
          rw [assocSet_eq_append acc.callbacks key newCB hfreshCb] at hkc
          rcases List.mem_append.mp hkc with hkc | hkc
          · have := hinv.cbsSub kc hkc
            simp only [hacc2, List.map_append]
            exact List.mem_append.mpr (Or.inl this)
          · have : kc = (key, newCB) := by simpa using hkc
            subst this
            simp [hacc2, hnewE]
        · intro e he
          rcases List.mem_append.mp he with he | he
          · obtain ⟨sd, hsd⟩ := hinv.sound e he
            exact ⟨sd, EntryIs_stable hsd (hstab2 e.key (List.mem_map.mpr ⟨e, he, rfl⟩))⟩
          · have : e = newEntry := by simpa using he
            subst this
            exact ⟨.scalarSlot pid nm ty q, hEInew⟩
      obtain ⟨ihinv, ihocc, ihmono, ihstab, ihcov⟩ := ih bound done acc2
        (fun ne h => h1 ne (by simp [h])) (fun ne h => h2 ne (by simp [h])) hinv2
      have hkeymem2 : ∀ k ∈ acc.params.map ParamEntry.key,
          k ∈ acc2.params.map ParamEntry.key := by
        intro k hk
        simp only [hacc2, List.map_append]
        exact List.mem_append.mpr (Or.inl hk)
      refine ⟨by rw [hstep]; exact ihinv, ?_, ?_, ?_, ?_⟩
      · intro nm'
        rw [hstep]
        exact le_trans (hoccmono2 nm') (ihocc nm')
      · intro e he
        rw [hstep]
        exact ihmono e (by simp [hacc2, he])
      · intro k hk
        rw [hstep, ihstab k (hkeymem2 k hk), hstab2 k hk]
      · intro ne hne
        rcases List.mem_cons.mp hne with rfl | hne
        · have hne2 : newEntry ∈ acc2.params := by simp [hacc2]
          have hkeyne : newEntry.key ∈ acc2.params.map ParamEntry.key :=
            List.mem_map.mpr ⟨newEntry, hne2, rfl⟩
          rw [hstep]
          exact ⟨newEntry, ihmono newEntry hne2,
            EntryIs_stable hEInew (ihstab newEntry.key hkeyne)⟩
        · rw [hstep]
          exact ihcov ne hne

theorem procPids_inv (o : Optimizer)
    (hdisj : ∀ nm ∈ optionNamesOf o, nm ∉ fieldNamesOf o)
    (hfld : ∀ pid fs, assocGet o.state pid = some fs → (fs.map Prod.fst).Nodup) :
    ∀ (pids : List Pid) (bound : ℕ) (done : List String) (acc : BuildAcc),
      BInv o bound done acc →
      BInv o bound done (procPids o.state pids acc) ∧
      (∀ e ∈ acc.params, e ∈ (procPids o.state pids acc).params) ∧
      (∀ key ∈ acc.params.map ParamEntry.key,
        assocGet (procPids o.state pids acc).callbacks key = assocGet acc.callbacks key) ∧
      (∀ pid ∈ pids, ∀ fs, assocGet o.state pid = some fs →
        ∀ ne ∈ fs, ∃ e ∈ (procPids o.state pids acc).params,
          EntryIs o (procPids o.state pids acc).callbacks e (fieldSlotDesc pid ne)) := by
  intro pids
  induction pids with
  | nil =>
    intro bound done acc hinv
    exact ⟨hinv, fun e he => he, fun k _ => rfl, fun pid hpid => absurd hpid (by simp)⟩
  | cons pid pids ih =>
    intro bound done acc hinv
    cases hget : assocGet o.state pid with
    | none =>
      have hstep : procPids o.state (pid :: pids) acc = procPids o.state pids acc := by
        simp only [procPids, List.foldl_cons, hget]
      obtain ⟨ihinv, ihmono, ihstab, ihcov⟩ := ih bound done acc hinv
      refine ⟨hstep ▸ ihinv, hstep ▸ ihmono, hstep ▸ ihstab, ?_⟩
      intro pid2 hpid2 fs hfs ne hne
      rcases List.mem_cons.mp hpid2 with rfl | hpid2
      · rw [hget] at hfs
        cases hfs
      · exact hstep ▸ ihcov pid2 hpid2 fs hfs ne hne
    | some allfs =>
      have hstep : procPids o.state (pid :: pids) acc =
          procPids o.state pids (procFields pid allfs acc) := by
        simp only [procPids, List.foldl_cons, hget]
      have hndf : (allfs.map Prod.fst).Nodup := hfld pid allfs hget
      have hmemf : ∀ ne ∈ allfs, assocGet allfs ne.1 = some ne.2 := by
        intro ne hne
        exact assocGet_of_mem_nodup hndf (by
          have : (ne.1, ne.2) = ne := rfl
          rw [this]
          exact hne)
      have hnames : ∀ ne ∈ allfs, ne.1 ∈ fieldNamesOf o := by
        intro ne hne
        have hmem : (pid, allfs) ∈ o.state := assocGet_mem hget
        unfold fieldNamesOf
        refine List.mem_flatten.mpr ⟨allfs.map Prod.fst, ?_, ?_⟩
        · exact List.mem_map.mpr ⟨(pid, allfs), hmem, rfl⟩
        · exact List.mem_map.mpr ⟨ne, hne, rfl⟩
      obtain ⟨finv, focc, fmono, fstab, fcov⟩ :=
        procFields_inv o pid allfs hget hdisj allfs bound done acc hmemf hnames hinv
      obtain ⟨ihinv, ihmono, ihstab, ihcov⟩ := ih bound done (procFields pid allfs acc) finv
      refine ⟨hstep ▸ ihinv, ?_, ?_, ?_⟩
      · intro e he
        rw [hstep]
        exact ihmono e (fmono e he)
      · intro k hk
        rw [hstep]
        have hk2 : k ∈ (procFields pid allfs acc).params.map ParamEntry.key := by
          obtain ⟨e, he, hek⟩ := List.mem_map.mp hk
          exact List.mem_map.mpr ⟨e, fmono e he, hek⟩
        rw [ihstab k hk2, fstab k hk]
      · intro pid2 hpid2 fs hfs ne hne
        rcases List.mem_cons.mp hpid2 with rfl | hpid2
        · rw [hget] at hfs
          rw [Option.some_inj] at hfs
          subst hfs
          obtain ⟨e, he, hEI⟩ := fcov ne hne
          rw [hstep]
          exact ⟨e, ihmono e he,
            EntryIs_stable hEI (ihstab e.key (List.mem_map.mpr ⟨e, he, rfl⟩))⟩
        · exact hstep ▸ ihcov pid2 hpid2 fs hfs ne hne

theorem BInv_next {o : Optimizer} {bound : ℕ} {done : List String} {acc : BuildAcc}
    (h : BInv o bound done acc) : BInv o (bound + 1) [] acc :=
  ⟨h.nodup, fun e he => KeyShape_next_group (h.shape e he), h.cbsSub, h.sound⟩

theorem procGroups_inv (o : Optimizer)
    (hdisj : ∀ nm ∈ optionNamesOf o, nm ∉ fieldNamesOf o)
    (hfld : ∀ pid fs, assocGet o.state pid = some fs → (fs.map Prod.fst).Nodup)
    (hoptnd : ∀ g ∈ o.paramGroups, (g.options.map Prod.fst).Nodup) :
    ∀ (gs : List ParamGroup) (bound : ℕ) (acc : BuildAcc),
      (∀ j g, listGet gs j = some g → listGet o.paramGroups (bound + j) = some g) →
      BInv o bound [] acc →
      BInv o (bound + gs.length) [] (procGroups o.state gs bound acc) ∧
      (∀ e ∈ acc.params, e ∈ (procGroups o.state gs bound acc).params) ∧
      (∀ key ∈ acc.params.map ParamEntry.key,
        assocGet (procGroups o.state gs bound acc).callbacks key = assocGet acc.callbacks key) ∧
      (∀ j g, listGet gs j = some g →
        (∀ kv ∈ g.options, ∃ e ∈ (procGroups o.state gs bound acc).params,
          EntryIs o (procGroups o.state gs bound acc).callbacks e
            (.optSlot (bound + j) kv.1 kv.2)) ∧
        (∀ pid ∈ g.params, ∀ fs, assocGet o.state pid = some fs →
          ∀ ne ∈ fs, ∃ e ∈ (procGroups o.state gs bound acc).params,
            EntryIs o (procGroups o.state gs bound acc).callbacks e (fieldSlotDesc pid ne))) := by
  intro gs
  induction gs with
  | nil =>
    intro bound acc _ hinv
    refine ⟨by simpa using hinv, fun e he => he, fun k _ => rfl, fun j g hg => ?_⟩
    rw [listGet] at hg
    cases hg
  | cons g gs ih =>
    intro bound acc hgs hinv
    have hstep : procGroups o.state (g :: gs) bound acc =
        procGroups o.state gs (bound + 1) (procPids o.state g.params (procOptions bound g.options acc)) := rfl
    have hg0 : listGet o.paramGroups bound = some g := by
      have := hgs 0 g rfl
      simpa using this
    have hgmem : g ∈ o.paramGroups := listGet_mem _ _ _ hg0
    have hnd : (g.options.map Prod.fst).Nodup := hoptnd g hgmem
    have hoptmem : ∀ kv ∈ g.options, assocGet g.options kv.1 = some kv.2 := by
      intro kv hkv
      exact assocGet_of_mem_nodup hnd (by
        have : (kv.1, kv.2) = kv := rfl
        rw [this]
        exact hkv)
    have hoptname : ∀ kv ∈ g.options, kv.1 ∈ optionNamesOf o := by
      intro kv hkv
      unfold optionNamesOf
      refine List.mem_flatten.mpr ⟨g.options.map Prod.fst, ?_, ?_⟩
      · exact List.mem_map.mpr ⟨g, hgmem, rfl⟩
      · exact List.mem_map.mpr ⟨kv, hkv, rfl⟩
    obtain ⟨oinv, oocc, omono, ostab, ocov⟩ :=
      procOptions_inv o g bound hg0 hdisj g.options [] acc
        (fun kv _ => by simp) hoptmem hoptname hnd hinv
    have oinv2 : BInv o bound (g.options.map Prod.fst)
        (procOptions bound g.options acc) := by simpa using oinv
    obtain ⟨pinv, pmono, pstab, pcov⟩ :=
      procPids_inv o hdisj hfld g.params bound (g.options.map Prod.fst)
        (procOptions bound g.options acc) oinv2
    obtain ⟨ihinv, ihmono, ihstab, ihcov⟩ := ih (bound + 1)
      (procPids o.state g.params (procOptions bound g.options acc))
      (by
        intro j g2 hg2
        have := hgs (j + 1) g2 hg2
        have harith : bound + (j + 1) = bound + 1 + j := by omega
        rw [harith] at this
        exact this)
      (BInv_next pinv)
    have hblen : bound + 1 + gs.length = bound + (g :: gs).length := by
      simp
      omega
    refine ⟨?_, ?_, ?_, ?_⟩
    · rw [hstep, ← hblen]
      exact ihinv
    · intro e he
      rw [hstep]
      exact ihmono e (pmono e (omono e he))
    · intro k hk
      rw [hstep]
      have hk1 : k ∈ (procOptions bound g.options acc).params.map ParamEntry.key := by
        obtain ⟨e, he, hek⟩ := List.mem_map.mp hk
        exact List.mem_map.mpr ⟨e, omono e he, hek⟩
      have hk2 : k ∈ (procPids o.state g.params
          (procOptions bound g.options acc)).params.map ParamEntry.key := by
        obtain ⟨e, he, hek⟩ := List.mem_map.mp hk1
        exact List.mem_map.mpr ⟨e, pmono e he, hek⟩
      rw [ihstab k hk2, pstab k hk1, ostab k hk]
    · intro j g2 hg2
      cases j with
      | zero =>
        rw [listGet, Option.some_inj] at hg2
        subst hg2
        constructor
        · intro kv hkv
          obtain ⟨e, he, hEI⟩ := ocov kv hkv
          have he2 := pmono e he
          have hEI2 := EntryIs_stable hEI (pstab e.key (List.mem_map.mpr ⟨e, he, rfl⟩))
          rw [hstep]
          have harith : bound + 0 = bound := by omega
          rw [harith]
          exact ⟨e, ihmono e he2,
            EntryIs_stable hEI2 (ihstab e.key (List.mem_map.mpr ⟨e, he2, rfl⟩))⟩
        · intro pid hpid fs hfs ne hne
          obtain ⟨e, he, hEI⟩ := pcov pid hpid fs hfs ne hne
          rw [hstep]
          exact ⟨e, ihmono e he,
            EntryIs_stable hEI (ihstab e.key (List.mem_map.mpr ⟨e, he, rfl⟩))⟩
      | succ j2 =>
        have hg2' : listGet gs j2 = some g2 := hg2
        have harith : bound + (j2 + 1) = bound + 1 + j2 := by omega
        rw [hstep, harith]
        exact ihcov j2 g2 hg2'

theorem buildAcc_spec (o : Optimizer)
    (hoptnd : ∀ g ∈ o.paramGroups, (g.options.map Prod.fst).Nodup)
    (hdisj : ∀ nm ∈ optionNamesOf o, nm ∉ fieldNamesOf o)
    (hfldm : ∀ ps ∈ o.state, (ps.2.map Prod.fst).Nodup) :
    ((buildAcc o).params.map ParamEntry.key).Nodup ∧
    (∀ e ∈ (buildAcc o).params, ∃ sd, EntryIs o (buildAcc o).callbacks e sd) ∧
    (∀ index g, listGet o.paramGroups index = some g →
      (∀ kv ∈ g.options, ∃ e ∈ (buildAcc o).params,
        EntryIs o (buildAcc o).callbacks e (.optSlot index kv.1 kv.2)) ∧
      (∀ pid ∈ g.params, ∀ fs, assocGet o.state pid = some fs →
        ∀ ne ∈ fs, ∃ e ∈ (buildAcc o).params,
          EntryIs o (buildAcc o).callbacks e (fieldSlotDesc pid ne))) := by
  have hfld : ∀ pid fs, assocGet o.state pid = some fs → (fs.map Prod.fst).Nodup :=
    fun pid fs h => hfldm (pid, fs) (assocGet_mem h)
  have hinv0 : BInv o 0 [] ⟨[], [], []⟩ := by
    refine ⟨by simp, ?_, ?_, ?_⟩
    · intro e he
      simp at he
    · intro kc hkc
      simp at hkc
    · intro e he
      simp at he
  obtain ⟨ginv, _, _, gcov⟩ := procGroups_inv o hdisj hfld hoptnd o.paramGroups 0 ⟨[], [], []⟩
    (fun j g h => by simpa using h) hinv0
  refine ⟨ginv.nodup, ginv.sound, fun index g hg => ?_⟩
  have := gcov index g hg
  simpa using this

/-- C3 (amended): the claim as stated fails (see `broadcast_keys_collide`): a
hyperparameter key `'<name>.<i>'` of group index `i ≥ 1` collides with the
state-field key `'<name>.<i>'` when an option name coincides with a state
field name whose occurrence counter reaches `i`. Within each family keys never
collide — option keys are distinct because each group's option dict has
distinct keys and the group index disambiguates across groups, and state-field
keys are distinct because the per-name occurrence counter disambiguates, so
two parameters sharing a field name always get distinct keys. Moreover,
whenever no option name equals a state-field name (the normal situation — the
dicts of Python optimizers use disjoint vocabularies), all keys of the batch
are pairwise distinct and every broadcast value and reconstruction callback
maps back to exactly one owning slot. -/
theorem broadcast_keys_nodup (o : Optimizer)
    (hoptnd : ∀ g ∈ o.paramGroups, (g.options.map Prod.fst).Nodup)
    (hfldm : ∀ ps ∈ o.state, (ps.2.map Prod.fst).Nodup)
    (hdisj : ∀ nm ∈ optionNamesOf o, nm ∉ fieldNamesOf o) :
    ((buildAcc o).params.map ParamEntry.key).Nodup :=
  (buildAcc_spec o hoptnd hdisj hfldm).1

/-- Witness for the amended C3 at a concrete optimizer with two parameters
sharing the field name `step`. -/
theorem broadcast_keys_nodup_witness :
    ((buildAcc exOpt).params.map ParamEntry.key).Nodup :=
  broadcast_keys_nodup exOpt (by decide) (by decide) (by decide)

/-! Lemmas for the reconstruction correctness (claim C5). -/

theorem listGet_some_lt {α : Type} :
    ∀ (l : List α) (i : ℕ) (x : α), listGet l i = some x → i < l.length := by
  intro l
  induction l with
  | nil => intro i x h; simp [listGet] at h
  | cons y l ih =>
    intro i x h
    cases i with
    | zero => simp
    | succ j =>
      have := ih j x h
      simpa using Nat.succ_lt_succ this

theorem assocGet_mem_fst {α β : Type} [DecidableEq α] {l : List (α × β)} {k : α} {v : β}
    (h : assocGet l k = some v) : k ∈ l.map Prod.fst := by
  by_contra hmem
  rw [← assocGet_eq_none_iff] at hmem
  rw [h] at hmem
  cases hmem

theorem assocGet_isSome_of_mem_fst {α β : Type} [DecidableEq α] {l : List (α × β)} {k : α}
    (h : k ∈ l.map Prod.fst) : ∃ v, assocGet l k = some v := by
  cases hg : assocGet l k with
  | none => exact absurd ((assocGet_eq_none_iff l k).mp hg) (by simpa using h)
  | some v => exact ⟨v, rfl⟩

theorem assocGet_map_val {α β γ : Type} [DecidableEq α] (f : β → γ) :
    ∀ (l : List (α × β)) (k : α),
      assocGet (l.map (fun kv => (kv.1, f kv.2))) k = (assocGet l k).map f := by
  intro l
  induction l with
  | nil => intro k; simp [assocGet]
  | cons kv l ih =>
    intro k
    by_cases h : k = kv.1
    · simp [assocGet, h]
    · simp [assocGet, h, ih]

theorem sameShape_one_elem {u x : TensorData} (h : sameShape u (.tarr [x]) = true) :
    ∃ y, u = .tarr [y] ∧ sameShape y x = true := by
  cases u with
  | tnum q => simp [sameShape] at h
  | tarr ys =>
    cases ys with
    | nil => simp [sameShape, sameShapeList] at h
    | cons y ys2 =>
      cases ys2 with
      | nil =>
        refine ⟨y, rfl, ?_⟩
        simpa [sameShape, sameShapeList, Bool.and_eq_true] using h
      | cons z zs => simp [sameShape, sameShapeList, Bool.and_eq_true] at h

theorem sameShape_num {y : TensorData} {q : ℚ} (h : sameShape y (.tnum q) = true) :
    ∃ q2, y = .tnum q2 := by
  cases y with
  | tnum q2 => exact ⟨q2, rfl⟩
  | tarr ys => simp [sameShape] at h

mutual

theorem recursive_cast_shape :
    ∀ (v : Value) (x : TensorData), sameShape x (flattenV v) = true →
      ∃ v2, recursive_cast x (get_types v) = some v2
  | .vscalar ty q, x, h => by
    rw [flattenV] at h
    obtain ⟨q2, rfl⟩ := sameShape_num h
    exact ⟨.vscalar ty (castTy ty q2), by simp [get_types, recursive_cast]⟩
  | .vcont c l, x, h => by
    rw [flattenV] at h
    cases x with
    | tnum q => simp [sameShape] at h
    | tarr xs =>
      rw [sameShape] at h
      obtain ⟨l2, hl2⟩ := recursiveCastList_shape l xs h
      exact ⟨.vcont c l2, by simp [get_types, recursive_cast, hl2]⟩

theorem recursiveCastList_shape :
    ∀ (l : List Value) (xs : List TensorData), sameShapeList xs (flattenVList l) = true →
      ∃ l2, recursiveCastList xs (getTypesList l) = some l2
  | [], xs, h => by
    rw [flattenVList] at h
    cases xs with
    | nil => exact ⟨[], by simp [getTypesList, recursiveCastList]⟩
    | cons x xs2 => simp [sameShapeList] at h
  | v :: l, xs, h => by
    rw [flattenVList] at h
    cases xs with
    | nil => simp [sameShapeList] at h
    | cons x xs2 =>
      rw [sameShapeList, Bool.and_eq_true] at h
      obtain ⟨v2, hv2⟩ := recursive_cast_shape v x h.1
      obtain ⟨l2, hl2⟩ := recursiveCastList_shape l xs2 h.2
      exact ⟨v2 :: l2, by simp [getTypesList, recursiveCastList, hv2, hl2]⟩

end

mutual

theorem sameShape_refl : ∀ (t : TensorData), sameShape t t = true
  | .tnum _ => rfl
  | .tarr xs => by
    rw [sameShape]
    exact sameShapeList_refl xs

theorem sameShapeList_refl : ∀ (l : List TensorData), sameShapeList l l = true
  | [] => rfl
  | x :: xs => by
    rw [sameShapeList, Bool.and_eq_true]
    exact ⟨sameShape_refl x, sameShapeList_refl xs⟩

end

theorem numTweak_eq {tweak : TensorData → TensorData} {q q2 : ℚ}
    (h : tGetZero (tweak (.tarr [.tnum q])) = some (.tnum q2)) : numTweak tweak q = q2 := by
  simp [numTweak, h]

theorem valueTweak_eq {tweak : TensorData → TensorData} {v v2 : Value} {x : TensorData}
    (h1 : tGetZero (tweak (.tarr [flattenV v])) = some x)
    (h2 : recursive_cast x (get_types v) = some v2) : valueTweak tweak v = v2 := by
  simp [valueTweak, h1, h2]

theorem broadcast_parameters_tweak (tweak : TensorData → TensorData) :
    ∀ (ps : List ParamEntry),
      broadcast_parameters (fun _ t => .ok (tweak t)) ps = .ok (ps.map (tweakEntry tweak)) := by
  intro ps
  induction ps with
  | nil => rfl
  | cons e es ih => simp [broadcast_parameters, ih, tweakEntry]

theorem initPhase_of_nonempty (o : Optimizer) (h : o.state.isEmpty = false) :
    initPhase o = (o, [], []) := by
  rw [initPhase, h]
  simp

theorem setGroupOption_spec (o : Optimizer) (index : ℕ) (k : String) (v v0 : Value)
    (h : optGet2 o index k = some v0) :
    ∃ o2, setGroupOption o index k v = some o2 ∧
      optGet2 o2 index k = some v ∧
      (∀ i2 k2, ¬(i2 = index ∧ k2 = k) → optGet2 o2 i2 k2 = optGet2 o i2 k2) ∧
      o2.state = o.state ∧ o2.pmeta = o.pmeta ∧ o2.stepState = o.stepState ∧
      o2.isLBFGS = o.isLBFGS ∧ o2.isDistributed = o.isDistributed ∧
      o2.paramGroups.length = o.paramGroups.length ∧
      (∀ i2, (listGet o2.paramGroups i2).map (fun g => g.options.map Prod.fst) =
        (listGet o.paramGroups i2).map (fun g => g.options.map Prod.fst)) ∧
      (∀ i2, (listGet o2.paramGroups i2).map ParamGroup.params =
        (listGet o.paramGroups i2).map ParamGroup.params) := by
  rw [optGet2] at h
  obtain ⟨g, hg, hk⟩ := Option.bind_eq_some.mp h
  have hlt : index < o.paramGroups.length := listGet_some_lt _ _ _ hg
  have hkmem : k ∈ g.options.map Prod.fst := assocGet_mem_fst hk
  refine ⟨{ o with paramGroups := listModify (fun g => { g with options := assocSet g.options k v }) o.paramGroups index }, by simp [setGroupOption, hlt], ?_, ?_, rfl, rfl, rfl, rfl, rfl, ?_, ?_, ?_⟩
  · rw [optGet2]
    simp only [listModify_get_self, hg, Option.map_some', Option.some_bind]
    exact assocGet_set_self _ _ _
  · intro i2 k2 hne
    rw [optGet2, optGet2]
    by_cases hi : i2 = index
    · subst hi
      have hk2 : k2 ≠ k := fun hkk => hne ⟨rfl, hkk⟩
      simp only [listModify_get_self, hg, Option.map_some', Option.some_bind]
      exact assocGet_set_ne _ _ _ _ hk2
    · simp only [listModify_get_ne _ _ _ _ (fun hh => hi hh.symm)]
  · exact listModify_length _ _ _
  · intro i2
    by_cases hi : i2 = index
    · subst hi
      simp only [listModify_get_self, hg, Option.map_some']
      rw [assocSet_map_fst_of_mem _ _ _ hkmem]
    · simp only [listModify_get_ne _ _ _ _ (fun hh => hi hh.symm)]
  · intro i2
    by_cases hi : i2 = index
    · subst hi
      simp only [listModify_get_self, hg, Option.map_some']
    · simp only [listModify_get_ne _ _ _ _ (fun hh => hi hh.symm)]

theorem setStateScalar_spec (o : Optimizer) (pid : Pid) (nm : String) (ty : ScalarTy) (q : ℚ)
    (e0 : Entry) (h : stateGetF o.state pid nm = some e0) :
    ∃ o2, setStateScalar o pid nm ty q = some o2 ∧
      stateGetF o2.state pid nm = some (.scalarE ty q) ∧
      (∀ pid2 nm2, ¬(pid2 = pid ∧ nm2 = nm) →
        stateGetF o2.state pid2 nm2 = stateGetF o.state pid2 nm2) ∧
      o2.paramGroups = o.paramGroups ∧ o2.pmeta = o.pmeta ∧ o2.stepState = o.stepState ∧
      o2.isLBFGS = o.isLBFGS ∧ o2.isDistributed = o.isDistributed ∧
      o2.state.map Prod.fst = o.state.map Prod.fst ∧
      (∀ pid2, (assocGet o2.state pid2).map (fun fs => fs.map Prod.fst) =
        (assocGet o.state pid2).map (fun fs => fs.map Prod.fst)) := by
  rw [stateGetF] at h
  obtain ⟨fs, hfs, hnm⟩ := Option.bind_eq_some.mp h
  have hpidmem : pid ∈ o.state.map Prod.fst := assocGet_mem_fst hfs
  have hnmmem : nm ∈ fs.map Prod.fst := assocGet_mem_fst hnm
  refine ⟨{ o with state := assocSet o.state pid (assocSet fs nm (.scalarE ty q)) }, by simp [setStateScalar, hfs], ?_, ?_, rfl, rfl, rfl, rfl, rfl, ?_, ?_⟩
  · rw [stateGetF]
    simp only [assocGet_set_self, Option.some_bind]
  · intro pid2 nm2 hne
    rw [stateGetF, stateGetF]
    by_cases hp : pid2 = pid
    · subst hp
      have hn2 : nm2 ≠ nm := fun hh => hne ⟨rfl, hh⟩
      simp only [assocGet_set_self, Option.some_bind, hfs]
      exact assocGet_set_ne _ _ _ _ hn2
    · simp only [assocGet_set_ne _ _ _ _ hp]
  · exact assocSet_map_fst_of_mem _ _ _ hpidmem
  · intro pid2
    by_cases hp : pid2 = pid
    · subst hp
      simp only [assocGet_set_self, hfs, Option.map_some']
      rw [assocSet_map_fst_of_mem _ _ _ hnmmem]
    · simp only [assocGet_set_ne _ _ _ _ hp]

theorem stateSetField_spec (st : OptState) (pid : Pid) (nm : String) (e e0 : Entry)
    (h : stateGetF st pid nm = some e0) :
    stateGetF (stateSetField st pid nm e) pid nm = some e ∧
    (∀ pid2 nm2, ¬(pid2 = pid ∧ nm2 = nm) →
      stateGetF (stateSetField st pid nm e) pid2 nm2 = stateGetF st pid2 nm2) ∧
    (stateSetField st pid nm e).map Prod.fst = st.map Prod.fst ∧
    (∀ pid2, (assocGet (stateSetField st pid nm e) pid2).map (fun fs => fs.map Prod.fst) =
      (assocGet st pid2).map (fun fs => fs.map Prod.fst)) := by
  rw [stateGetF] at h
  obtain ⟨fs, hfs, hnm⟩ := Option.bind_eq_some.mp h
  have hpidmem : pid ∈ st.map Prod.fst := assocGet_mem_fst hfs
  have hnmmem : nm ∈ fs.map Prod.fst := assocGet_mem_fst hnm
  have hdef : stateSetField st pid nm e = assocSet st pid (assocSet fs nm e) := by
    rw [stateSetField, hfs]
  refine ⟨?_, ?_, ?_, ?_⟩
  · rw [hdef, stateGetF]
    simp only [assocGet_set_self, Option.some_bind]
  · intro pid2 nm2 hne
    rw [hdef, stateGetF, stateGetF]
    by_cases hp : pid2 = pid
    · subst hp
      have hn2 : nm2 ≠ nm := fun hh => hne ⟨rfl, hh⟩
      simp only [assocGet_set_self, Option.some_bind, hfs]
      exact assocGet_set_ne _ _ _ _ hn2
    · simp only [assocGet_set_ne _ _ _ _ hp]
  · rw [hdef]
    exact assocSet_map_fst_of_mem _ _ _ hpidmem
  · intro pid2
    rw [hdef]
    by_cases hp : pid2 = pid
    · subst hp
      simp only [assocGet_set_self, hfs, Option.map_some']
      rw [assocSet_map_fst_of_mem _ _ _ hnmmem]
    · simp only [assocGet_set_ne _ _ _ _ hp]

theorem StateShape_get_some {st1 st : OptState} (hs : StateShape st1 st) {pid : Pid}
    {nm : String} {e0 : Entry} (h : stateGetF st1 pid nm = some e0) :
    ∃ e1, stateGetF st pid nm = some e1 := by
  rw [stateGetF] at h
  obtain ⟨fs1, hfs1, hnm1⟩ := Option.bind_eq_some.mp h
  have hpid : pid ∈ st.map Prod.fst := by
    rw [hs.1]
    exact assocGet_mem_fst hfs1
  obtain ⟨fs, hfs⟩ := assocGet_isSome_of_mem_fst hpid
  have hkeys : fs.map Prod.fst = fs1.map Prod.fst := by
    have := hs.2 pid
    rw [hfs, hfs1] at this
    simpa using this
  have hnm : nm ∈ fs.map Prod.fst := by
    rw [hkeys]
    exact assocGet_mem_fst hnm1
  obtain ⟨e1, he1⟩ := assocGet_isSome_of_mem_fst hnm
  exact ⟨e1, by rw [stateGetF, hfs, Option.some_bind, he1]⟩

theorem GroupsShape_get_some {o1 o : Optimizer} (hs : GroupsShape o1 o) {index : ℕ}
    {k : String} {v0 : Value} (h : optGet2 o1 index k = some v0) :
    ∃ v1, optGet2 o index k = some v1 := by
  rw [optGet2] at h
  obtain ⟨g1, hg1, hk1⟩ := Option.bind_eq_some.mp h
  have hlt : index < o.paramGroups.length := by
    rw [hs.1]
    exact listGet_some_lt _ _ _ hg1
  obtain ⟨g, hg⟩ := listGet_lt_length o.paramGroups index hlt
  have hkeys : g.options.map Prod.fst = g1.options.map Prod.fst := by
    have := hs.2.1 index
    rw [hg, hg1] at this
    simpa using this
  have hk : k ∈ g.options.map Prod.fst := by
    rw [hkeys]
    exact assocGet_mem_fst hk1
  obtain ⟨v1, hv1⟩ := assocGet_isSome_of_mem_fst hk
  exact ⟨v1, by rw [optGet2, hg, Option.some_bind, hv1]⟩

theorem optionSlotIs_iff (o : Optimizer) (index : ℕ) (k : String) (v : Value) :
    optionSlotIs o index k v ↔ optGet2 o index k = some v := by
  rw [optionSlotIs, optGet2, Option.bind_eq_some]

theorem stateSlotIs_iff (o : Optimizer) (pid : Pid) (nm : String) (e : Entry) :
    stateSlotIs o pid nm e ↔ stateGetF o.state pid nm = some e := by
  rw [stateSlotIs, stateGetF, Option.bind_eq_some]

theorem applyAliasWrites_spec (o1 : Optimizer) (cbs : List (String × CB))
    (tweak : TensorData → TensorData) :
    ∀ (es : List ParamEntry) (st : OptState),
      (∀ ep ∈ es, ∃ e sd, ep = tweakEntry tweak e ∧ EntryIs o1 cbs e sd) →
      StateShape o1.state st →
      (∀ pid nm e0, stateGetF o1.state pid nm = some e0 →
        stateGetF st pid nm = some e0 ∨
          (∃ t, e0 = .tensorE t ∧ stateGetF st pid nm = some (.tensorE (tweak t)))) →
      StateShape o1.state (applyAliasWrites st es) ∧
      (∀ pid nm e0, stateGetF o1.state pid nm = some e0 →
        stateGetF (applyAliasWrites st es) pid nm = some e0 ∨
          (∃ t, e0 = .tensorE t ∧
            stateGetF (applyAliasWrites st es) pid nm = some (.tensorE (tweak t)))) ∧
      (∀ pid nm t, stateGetF o1.state pid nm = some (.tensorE t) →
        stateGetF st pid nm = some (.tensorE (tweak t)) →
        stateGetF (applyAliasWrites st es) pid nm = some (.tensorE (tweak t))) ∧
      (∀ pid nm t, stateGetF o1.state pid nm = some (.tensorE t) →
        (∃ e, tweakEntry tweak e ∈ es ∧ EntryIs o1 cbs e (.tensorSlot pid nm t)) →
        stateGetF (applyAliasWrites st es) pid nm = some (.tensorE (tweak t))) := by
  intro es
  induction es with
  | nil =>
    intro st _ hshape hvals
    refine ⟨hshape, hvals, fun pid nm t _ h => h, fun pid nm t _ hcov => ?_⟩
    obtain ⟨e, hmem, _⟩ := hcov
    simp at hmem
  | cons ep es ih =>
    intro st hes hshape hvals
    obtain ⟨e, sd, hep, hEI⟩ := hes ep (by simp)
    have hestail : ∀ ep2 ∈ es, ∃ e2 sd2, ep2 = tweakEntry tweak e2 ∧ EntryIs o1 cbs e2 sd2 :=
      fun ep2 h2 => hes ep2 (by simp [h2])
    cases sd with
    | optSlot index k v =>
      have halias : ep.stateAlias = none := by
        rw [hep]
        exact hEI.2.1
      have hstep : applyAliasWrites st (ep :: es) = applyAliasWrites st es := by
        simp only [applyAliasWrites, List.foldl_cons, halias]
      rw [hstep]
      obtain ⟨c1, c2, c3, c4⟩ := ih st hestail hshape hvals
      refine ⟨c1, c2, c3, ?_⟩
      intro pid2 nm2 t2 hbase hcov
      obtain ⟨e2, hmem, hEI2⟩ := hcov
      rcases List.mem_cons.mp hmem with heq | hmem2
      · have hkey : e2.stateAlias = some (pid2, nm2) := hEI2.2.1
        have hsame : ep.stateAlias = e2.stateAlias := by
          rw [← heq]
          rfl
        rw [halias, hkey] at hsame
        cases hsame
      · exact c4 pid2 nm2 t2 hbase ⟨e2, hmem2, hEI2⟩
    | scalarSlot pid nm ty q =>
      have halias : ep.stateAlias = none := by
        rw [hep]
        exact hEI.2.1
      have hstep : applyAliasWrites st (ep :: es) = applyAliasWrites st es := by
        simp only [applyAliasWrites, List.foldl_cons, halias]
      rw [hstep]
      obtain ⟨c1, c2, c3, c4⟩ := ih st hestail hshape hvals
      refine ⟨c1, c2, c3, ?_⟩
      intro pid2 nm2 t2 hbase hcov
      obtain ⟨e2, hmem, hEI2⟩ := hcov
      rcases List.mem_cons.mp hmem with heq | hmem2
      · have hkey : e2.stateAlias = some (pid2, nm2) := hEI2.2.1
        have : ep.stateAlias = e2.stateAlias := by
          rw [← heq]
          rfl
        rw [halias] at this
        rw [hkey] at this
        cases this
      · exact c4 pid2 nm2 t2 hbase ⟨e2, hmem2, hEI2⟩
    | tensorSlot pid nm t =>
      have halias : ep.stateAlias = some (pid, nm) := by
        rw [hep]
        exact hEI.2.1
      have htens : ep.tensor = tweak t := by
        rw [hep, tweakEntry]
        show tweak e.tensor = tweak t
        rw [hEI.1]
      have hbase : stateGetF o1.state pid nm = some (.tensorE t) :=
        (stateSlotIs_iff o1 pid nm (.tensorE t)).mp hEI.2.2.2
      obtain ⟨e0s, he0s⟩ := StateShape_get_some hshape hbase
      have hstep : applyAliasWrites st (ep :: es) =
          applyAliasWrites (stateSetField st pid nm (.tensorE (tweak t))) es := by
        simp only [applyAliasWrites, List.foldl_cons, halias, htens]
      obtain ⟨w1, w2, w3, w4⟩ := stateSetField_spec st pid nm (.tensorE (tweak t)) e0s he0s
      set st2 := stateSetField st pid nm (.tensorE (tweak t)) with hst2
      have hshape2 : StateShape o1.state st2 := by
        refine ⟨?_, ?_⟩
        · rw [w3]
          exact hshape.1
        · intro pid2
          rw [w4 pid2]
          exact hshape.2 pid2
      have hvals2 : ∀ pid2 nm2 e0, stateGetF o1.state pid2 nm2 = some e0 →
          stateGetF st2 pid2 nm2 = some e0 ∨
            (∃ t2, e0 = .tensorE t2 ∧ stateGetF st2 pid2 nm2 = some (.tensorE (tweak t2))) := by
        intro pid2 nm2 e0 h0
        by_cases hpn : pid2 = pid ∧ nm2 = nm
        · obtain ⟨rfl, rfl⟩ := hpn
          have he0 : e0 = .tensorE t := by
            rw [h0] at hbase
            exact Option.some_inj.mp hbase
          exact Or.inr ⟨t, he0, w1⟩
        · rw [w2 pid2 nm2 hpn]
          exact hvals pid2 nm2 e0 h0
      obtain ⟨c1, c2, c3, c4⟩ := ih st2 hestail hshape2 hvals2
      rw [hstep]
      refine ⟨c1, c2, ?_, ?_⟩
      · intro pid2 nm2 t2 hb2 hcur
        by_cases hpn : pid2 = pid ∧ nm2 = nm
        · obtain ⟨rfl, rfl⟩ := hpn
          have ht2 : t2 = t := by
            rw [hb2] at hbase
            have := Option.some_inj.mp hbase
            cases this
            rfl
          subst ht2
          exact c3 pid2 nm2 t2 hb2 w1
        · refine c3 pid2 nm2 t2 hb2 ?_
          rw [w2 pid2 nm2 hpn]
          exact hcur
      · intro pid2 nm2 t2 hb2 hcov
        obtain ⟨e2, hmem, hEI2⟩ := hcov
        rcases List.mem_cons.mp hmem with heq | hmem2
        · have hal2 : e2.stateAlias = some (pid2, nm2) := hEI2.2.1
          have hsame : ep.stateAlias = e2.stateAlias := by
            rw [← heq]
            rfl
          rw [halias, hal2] at hsame
          rw [Option.some_inj] at hsame
          have hpid2 : pid2 = pid := by
            have := congrArg Prod.fst hsame
            exact this.symm
          have hnm2 : nm2 = nm := by
            have := congrArg Prod.snd hsame
            exact this.symm
          subst hpid2
          subst hnm2
          have ht2 : t2 = t := by
            have hb3 := (stateSlotIs_iff o1 pid2 nm2 (.tensorE t2)).mp hEI2.2.2.2
            rw [hb3] at hbase
            have := Option.some_inj.mp hbase
            cases this
            rfl
          subst ht2
          exact c3 pid2 nm2 t2 hb2 w1
        · exact c4 pid2 nm2 t2 hb2 ⟨e2, hmem2, hEI2⟩

theorem optGet2_congr_groups {o2 o : Optimizer} (h : o2.paramGroups = o.paramGroups)
    (index : ℕ) (k : String) : optGet2 o2 index k = optGet2 o index k := by
  rw [optGet2, optGet2, h]

theorem runCallbacks_spec (o1 : Optimizer) (cbs : List (String × CB))
    (tweak : TensorData → TensorData) (hsh : ∀ t, sameShape (tweak t) t = true) :
    ∀ (es : List ParamEntry) (o : Optimizer),
      (∀ ep ∈ es, ∃ e sd, ep = tweakEntry tweak e ∧ EntryIs o1 cbs e sd) →
      GroupsShape o1 o →
      StateShape o1.state o.state →
      ∃ o3, runCallbacks cbs o es = some o3 ∧
        GroupsShape o1 o3 ∧ StateShape o1.state o3.state ∧
        o3.pmeta = o.pmeta ∧ o3.stepState = o.stepState ∧
        o3.isLBFGS = o.isLBFGS ∧ o3.isDistributed = o.isDistributed ∧
        (∀ index k v, optGet2 o1 index k = some v →
          (∃ e2, tweakEntry tweak e2 ∈ es ∧ EntryIs o1 cbs e2 (.optSlot index k v)) →
          optGet2 o3 index k = some (valueTweak tweak v)) ∧
        (∀ index k v, optGet2 o1 index k = some v →
          optGet2 o index k = some (valueTweak tweak v) →
          optGet2 o3 index k = some (valueTweak tweak v)) ∧
        (∀ pid nm ty q, stateGetF o1.state pid nm = some (.scalarE ty q) →
          (∃ e2, tweakEntry tweak e2 ∈ es ∧ EntryIs o1 cbs e2 (.scalarSlot pid nm ty q)) →
          stateGetF o3.state pid nm = some (.scalarE ty (castTy ty (numTweak tweak q)))) ∧
        (∀ pid nm ty q, stateGetF o1.state pid nm = some (.scalarE ty q) →
          stateGetF o.state pid nm = some (.scalarE ty (castTy ty (numTweak tweak q))) →
          stateGetF o3.state pid nm = some (.scalarE ty (castTy ty (numTweak tweak q)))) ∧
        (∀ pid nm t, stateGetF o1.state pid nm = some (.tensorE t) →
          stateGetF o3.state pid nm = stateGetF o.state pid nm) := by
  intro es
  induction es with
  | nil =>
    intro o _ hgs hss
    refine ⟨o, rfl, hgs, hss, rfl, rfl, rfl, rfl, ?_, ?_, ?_, ?_, ?_⟩
    · intro index k v _ hcov
      obtain ⟨e2, hmem, _⟩ := hcov
      simp at hmem
    · intro index k v _ h
      exact h
    · intro pid nm ty q _ hcov
      obtain ⟨e2, hmem, _⟩ := hcov
      simp at hmem
    · intro pid nm ty q _ h
      exact h
    · intro pid nm t _
      rfl
  | cons ep es ih =>
    intro o hes hgs hss
    obtain ⟨e, sd, hep, hEI⟩ := hes ep (by simp)
    have hestail : ∀ ep2 ∈ es, ∃ e2 sd2, ep2 = tweakEntry tweak e2 ∧ EntryIs o1 cbs e2 sd2 :=
      fun ep2 h2 => hes ep2 (by simp [h2])
    have hkey : ep.key = e.key := by
      rw [hep]
      rfl
    cases sd with
    | tensorSlot pid nm t =>
      have hlook : assocGet cbs ep.key = none := by
        rw [hkey]
        exact hEI.2.2.1
      have hstep : runCallbacks cbs o (ep :: es) = runCallbacks cbs o es := by
        simp only [runCallbacks, hlook]
      obtain ⟨o3, hrun, c1, c2, c3, c4, c5, c6, cAo, cPo, cAs, cPs, cFt⟩ :=
        ih o hestail hgs hss
      refine ⟨o3, hstep ▸ hrun, c1, c2, c3, c4, c5, c6, ?_, cPo, ?_, cPs, cFt⟩
      · intro index k v hb hcov
        obtain ⟨e2, hmem, hEI2⟩ := hcov
        rcases List.mem_cons.mp hmem with heq | hmem2
        · have hk2 : e2.key = ep.key := by
            rw [← heq]
            rfl
          have := hEI2.2.2.1
          rw [hk2, hlook] at this
          cases this
        · exact cAo index k v hb ⟨e2, hmem2, hEI2⟩
      · intro pid2 nm2 ty2 q2 hb hcov
        obtain ⟨e2, hmem, hEI2⟩ := hcov
        rcases List.mem_cons.mp hmem with heq | hmem2
        · have hk2 : e2.key = ep.key := by
            rw [← heq]
            rfl
          have := hEI2.2.2.1
          rw [hk2, hlook] at this
          cases this
        · exact cAs pid2 nm2 ty2 q2 hb ⟨e2, hmem2, hEI2⟩
    | optSlot index k v =>
      have hlook : assocGet cbs ep.key = some (.optionCB index k (get_types v)) := by
        rw [hkey]
        exact hEI.2.2.1
      have htens : ep.tensor = tweak (.tarr [flattenV v]) := by
        rw [hep]
        show tweak e.tensor = _
        rw [hEI.1]
      obtain ⟨y, hy, hyx⟩ := sameShape_one_elem (hsh (.tarr [flattenV v]))
      have htg : tGetZero ep.tensor = some y := by
        rw [htens, hy]
        rfl
      obtain ⟨v2, hcast⟩ := recursive_cast_shape v y hyx
      have hvt : valueTweak tweak v = v2 := valueTweak_eq (by rw [hy]; rfl) hcast
      have hbase : optGet2 o1 index k = some v := (optionSlotIs_iff o1 index k v).mp hEI.2.2.2
      obtain ⟨v1, hv1⟩ := GroupsShape_get_some hgs hbase
      obtain ⟨o2, hso, wself, wframe, wstate, wpmeta, wstep, wlbfgs, wdist, wlen, wkeys, wparams⟩ :=
        setGroupOption_spec o index k v2 v1 hv1
      have happly : applyCB o (.optionCB index k (get_types v)) ep.tensor = some o2 := by
        simp only [applyCB, htg, hcast]
        exact hso
      have hstep : runCallbacks cbs o (ep :: es) = runCallbacks cbs o2 es := by
        simp only [runCallbacks, hlook, happly]
      have hgs2 : GroupsShape o1 o2 :=
        ⟨wlen.trans hgs.1, fun i => (wkeys i).trans (hgs.2.1 i),
          fun i => (wparams i).trans (hgs.2.2 i)⟩
      have hss2 : StateShape o1.state o2.state := by
        rw [wstate]
        exact hss
      obtain ⟨o3, hrun, c1, c2, c3, c4, c5, c6, cAo, cPo, cAs, cPs, cFt⟩ :=
        ih o2 hestail hgs2 hss2
      refine ⟨o3, hstep ▸ hrun, c1, c2, c3.trans wpmeta, c4.trans wstep,
        c5.trans wlbfgs, c6.trans wdist, ?_, ?_, ?_, ?_, ?_⟩
      · intro i2 k2 v3 hb3 hcov
        obtain ⟨e2, hmem, hEI2⟩ := hcov
        rcases List.mem_cons.mp hmem with heq | hmem2
        · have hk2 : e2.key = ep.key := by
            rw [← heq]
            rfl
          have hl2 := hEI2.2.2.1
          rw [hk2, hlook] at hl2
          rw [Option.some_inj] at hl2
          injection hl2 with hi hkk hsig
          subst hi
          subst hkk
          have hv3 : v3 = v := by
            rw [hb3] at hbase
            exact Option.some_inj.mp hbase
          subst hv3
          refine cPo _ _ _ hb3 ?_
          rw [hvt]
          exact wself
        · exact cAo i2 k2 v3 hb3 ⟨e2, hmem2, hEI2⟩
      · intro i2 k2 v3 hb3 hcur
        by_cases hik : i2 = index ∧ k2 = k
        · obtain ⟨rfl, rfl⟩ := hik
          have hv3 : v3 = v := by
            rw [hb3] at hbase
            exact Option.some_inj.mp hbase
          subst hv3
          refine cPo _ _ _ hb3 ?_
          rw [hvt]
          exact wself
        · refine cPo i2 k2 v3 hb3 ?_
          rw [wframe i2 k2 hik]
          exact hcur
      · intro pid2 nm2 ty2 q2 hb hcov
        obtain ⟨e2, hmem, hEI2⟩ := hcov
        rcases List.mem_cons.mp hmem with heq | hmem2
        · have hk2 : e2.key = ep.key := by
            rw [← heq]
            rfl
          have hl2 := hEI2.2.2.1
          rw [hk2, hlook] at hl2
          rw [Option.some_inj] at hl2
          cases hl2
        · exact cAs pid2 nm2 ty2 q2 hb ⟨e2, hmem2, hEI2⟩
      · intro pid2 nm2 ty2 q2 hb hcur
        refine cPs pid2 nm2 ty2 q2 hb ?_
        rw [wstate]
        exact hcur
      · intro pid2 nm2 t2 hb
        rw [cFt pid2 nm2 t2 hb, wstate]
    | scalarSlot pid nm ty q =>
      have hlook : assocGet cbs ep.key = some (.stateCB pid nm ty) := by
        rw [hkey]
        exact hEI.2.2.1
      have htens : ep.tensor = tweak (.tarr [.tnum q]) := by
        rw [hep]
        show tweak e.tensor = _
        rw [hEI.1]
      obtain ⟨y, hy, hyx⟩ := sameShape_one_elem (hsh (.tarr [.tnum q]))
      obtain ⟨q2, hq2⟩ := sameShape_num hyx
      subst hq2
      have htg : tGetZero ep.tensor = some (.tnum q2) := by
        rw [htens, hy]
        rfl
      have hnum : numTweak tweak q = q2 := numTweak_eq (by rw [hy]; rfl)
      have hbase : stateGetF o1.state pid nm = some (.scalarE ty q) :=
        (stateSlotIs_iff o1 pid nm (.scalarE ty q)).mp hEI.2.2.2
      obtain ⟨e0, he0⟩ := StateShape_get_some hss hbase
      obtain ⟨o2, hso, wself, wframe, wgroups, wpmeta, wstep, wlbfgs, wdist, wkeys, wfields⟩ :=
        setStateScalar_spec o pid nm ty (castTy ty q2) e0 he0
      have happly : applyCB o (.stateCB pid nm ty) ep.tensor = some o2 := by
        rw [applyCB, htg]
        exact hso
      have hstep : runCallbacks cbs o (ep :: es) = runCallbacks cbs o2 es := by
        simp only [runCallbacks, hlook, happly]
      have hgs2 : GroupsShape o1 o2 := by
        refine ⟨?_, ?_, ?_⟩
        · rw [wgroups]
          exact hgs.1
        · intro i
          rw [wgroups]
          exact hgs.2.1 i
        · intro i
          rw [wgroups]
          exact hgs.2.2 i
      have hss2 : StateShape o1.state o2.state :=
        ⟨wkeys.trans hss.1, fun pid2 => (wfields pid2).trans (hss.2 pid2)⟩
      obtain ⟨o3, hrun, c1, c2, c3, c4, c5, c6, cAo, cPo, cAs, cPs, cFt⟩ :=
        ih o2 hestail hgs2 hss2
      refine ⟨o3, hstep ▸ hrun, c1, c2, c3.trans wpmeta, c4.trans wstep,
        c5.trans wlbfgs, c6.trans wdist, ?_, ?_, ?_, ?_, ?_⟩
      · intro i2 k2 v3 hb3 hcov
        obtain ⟨e2, hmem, hEI2⟩ := hcov
        rcases List.mem_cons.mp hmem with heq | hmem2
        · have hk2 : e2.key = ep.key := by
            rw [← heq]
            rfl
          have hl2 := hEI2.2.2.1
          rw [hk2, hlook] at hl2
          rw [Option.some_inj] at hl2
          cases hl2
        · exact cAo i2 k2 v3 hb3 ⟨e2, hmem2, hEI2⟩
      · intro i2 k2 v3 hb3 hcur
        refine cPo i2 k2 v3 hb3 ?_
        rw [optGet2_congr_groups wgroups]
        exact hcur
      · intro pid2 nm2 ty2 q3 hb3 hcov
        obtain ⟨e2, hmem, hEI2⟩ := hcov
        rcases List.mem_cons.mp hmem with heq | hmem2
        · have hk2 : e2.key = ep.key := by
            rw [← heq]
            rfl
          have hl2 := hEI2.2.2.1
          rw [hk2, hlook] at hl2
          rw [Option.some_inj] at hl2
          injection hl2 with hpi hnmi htyi
          subst hpi
          subst hnmi
          subst htyi
          have hq3 : q3 = q := by
            have h9 := hbase
            rw [hb3] at h9
            have h10 := Option.some_inj.mp h9
            injection h10
          subst hq3
          refine cPs _ _ _ _ hb3 ?_
          rw [hnum]
          exact wself
        · exact cAs pid2 nm2 ty2 q3 hb3 ⟨e2, hmem2, hEI2⟩
      · intro pid2 nm2 ty2 q3 hb3 hcur
        by_cases hpn : pid2 = pid ∧ nm2 = nm
        · obtain ⟨rfl, rfl⟩ := hpn
          have h9 := hbase
          rw [hb3] at h9
          have h10 := Option.some_inj.mp h9
          injection h10 with hty hq
          subst hty
          subst hq
          refine cPs _ _ _ _ hb3 ?_
          rw [hnum]
          exact wself
        · refine cPs pid2 nm2 ty2 q3 hb3 ?_
          rw [wframe pid2 nm2 hpn]
          exact hcur
      · intro pid2 nm2 t2 hb3
        have hne : ¬(pid2 = pid ∧ nm2 = nm) := by
          rintro ⟨rfl, rfl⟩
          rw [hb3] at hbase
          cases Option.some_inj.mp hbase
        rw [cFt pid2 nm2 t2 hb3, wframe pid2 nm2 hne]

theorem mem_listGet {α : Type} : ∀ {l : List α} {a : α}, a ∈ l → ∃ i, listGet l i = some a := by
  intro l
  induction l with
  | nil =>
    intro a h
    simp at h
  | cons x l ih =>
    intro a h
    rcases List.mem_cons.mp h with h1 | h2
    · exact ⟨0, by rw [h1]; rfl⟩
    · obtain ⟨i, hi⟩ := ih h2
      exact ⟨i + 1, hi⟩

theorem listGet_none_of_ge {α : Type} :
    ∀ (l : List α) (i : ℕ), l.length ≤ i → listGet l i = none := by
  intro l
  induction l with
  | nil =>
    intro i _
    rfl
  | cons x l ih =>
    intro i h
    cases i with
    | zero => simp at h
    | succ j => exact ih j (by simpa using h)

theorem groupPidsOf_mem {o : Optimizer} {pid : Pid} (h : pid ∈ groupPidsOf o) :
    ∃ index g, listGet o.paramGroups index = some g ∧ pid ∈ g.params := by
  rw [groupPidsOf] at h
  obtain ⟨l, hl, hpl⟩ := List.mem_flatten.mp h
  obtain ⟨g, hg, rfl⟩ := List.mem_map.mp hl
  obtain ⟨index, hidx⟩ := mem_listGet hg
  exact ⟨index, g, hidx, hpl⟩

theorem optimizer_ext {a b : Optimizer} (h1 : a.isLBFGS = b.isLBFGS)
    (h2 : a.isDistributed = b.isDistributed) (h3 : a.paramGroups = b.paramGroups)
    (h4 : a.state = b.state) (h5 : a.pmeta = b.pmeta) (h6 : a.stepState = b.stepState) :
    a = b := by
  cases a
  cases b
  simp_all

theorem paramGroup_ext {a b : ParamGroup} (h1 : a.options = b.options)
    (h2 : a.params = b.params) : a = b := by
  cases a
  cases b
  simp_all

/-- C5: after the batched broadcast completes, the post-broadcast cleanup loop
invokes every registered reconstruction callback; each one reads its
now-synchronized single-element tensor, converts it back through the recorded
type signature, and writes the result in place into its owning slot — group
hyperparameters into the optimizer's param_groups entry and per-parameter
scalar state fields into the optimizer's state entry — while the tensor-valued
state fields already hold their delivered buffers through the in-place batched
broadcast. Hence, for every shape-preserving collective delivering
`tweak buffer` on each transfer, the call returns the optimizer in which every
hyperparameter and every state field holds the reconstruction of its own
delivered tensor (`specMap`), slot by slot, with nothing else changed. The
well-formedness hypotheses are those of a real `state_dict()`: per-dict key
uniqueness, option/field name disjointness (no cross-family key collision, see
C3), and state owned by parameters listed in the groups. -/
theorem broadcast_reconstructs_optimizer (o : Optimizer) (tweak : TensorData → TensorData)
    (hsh : ∀ t, sameShape (tweak t) t = true)
    (hlbfgs : o.isLBFGS = false) (hne : o.state.isEmpty = false)
    (hoptnd : ∀ g ∈ o.paramGroups, (g.options.map Prod.fst).Nodup)
    (hfldm : ∀ ps ∈ o.state, (ps.2.map Prod.fst).Nodup)
    (hstnd : (o.state.map Prod.fst).Nodup)
    (hdisj : ∀ nm ∈ optionNamesOf o, nm ∉ fieldNamesOf o)
    (hstcov : ∀ ps ∈ o.state, ps.1 ∈ groupPidsOf o) :
    (broadcast_optimizer_state o (fun _ t => .ok (tweak t))).1 = .ok (specMap tweak o) := by
  obtain ⟨hnodup, hsound, hcov⟩ := buildAcc_spec o hoptnd hdisj hfldm
  have hes : ∀ ep ∈ (buildAcc o).params.map (tweakEntry tweak),
      ∃ e sd, ep = tweakEntry tweak e ∧ EntryIs o (buildAcc o).callbacks e sd := by
    intro ep hep
    obtain ⟨e, he, rfl⟩ := List.mem_map.mp hep
    obtain ⟨sd, hsd⟩ := hsound e he
    exact ⟨e, sd, rfl, hsd⟩
  obtain ⟨hshape2, hvals2, hpers2, hcov2⟩ :=
    applyAliasWrites_spec o (buildAcc o).callbacks tweak
      ((buildAcc o).params.map (tweakEntry tweak)) o.state hes ⟨rfl, fun _ => rfl⟩
      (fun pid nm e0 h => Or.inl h)
  obtain ⟨o3, hrun, hgs3, hss3, hpm3, hstep3, hlb3, hdist3, cAo, cPo, cAs, cPs, cFt⟩ :=
    runCallbacks_spec o (buildAcc o).callbacks tweak hsh
      ((buildAcc o).params.map (tweakEntry tweak))
      { o with
          isLBFGS := false
          state := applyAliasWrites o.state ((buildAcc o).params.map (tweakEntry tweak)) }
      hes ⟨rfl, fun _ => rfl, fun _ => rfl⟩ hshape2
  have hparamGroups : o3.paramGroups = (specMap tweak o).paramGroups := by
    show o3.paramGroups = o.paramGroups.map (fun g =>
      { g with options := g.options.map (fun kv => (kv.1, valueTweak tweak kv.2)) })
    refine list_ext_listGet _ _ (fun i => ?_)
    rw [listGet_map]
    cases hgi : listGet o.paramGroups i with
    | none =>
      have hlen : o.paramGroups.length ≤ i := by
        by_contra hlt
        push_neg at hlt
        obtain ⟨g, hg⟩ := listGet_lt_length o.paramGroups i hlt
        rw [hg] at hgi
        cases hgi
      rw [listGet_none_of_ge _ _ (by rw [hgs3.1]; exact hlen)]
      rfl
    | some g =>
      have hlt : i < o.paramGroups.length := listGet_some_lt _ _ _ hgi
      obtain ⟨g3, hg3⟩ := listGet_lt_length o3.paramGroups i (by rw [hgs3.1]; exact hlt)
      have hkeys : g3.options.map Prod.fst = g.options.map Prod.fst := by
        have h5 := hgs3.2.1 i
        rw [hg3, hgi] at h5
        simpa using h5
      have hparams : g3.params = g.params := by
        have h5 := hgs3.2.2 i
        rw [hg3, hgi] at h5
        simpa using h5
      rw [hg3]
      refine congrArg some (paramGroup_ext ?_ hparams)
      refine assoc_ext _ _ ?_ ?_ (fun k => ?_)
      · rw [hkeys, List.map_map]
        rfl
      · rw [hkeys]
        exact hoptnd g (listGet_mem _ _ _ hgi)
      · rw [assocGet_map_val]
        cases hk : assocGet g.options k with
        | none =>
          have h3 : assocGet g3.options k = none := by
            rw [assocGet_eq_none_iff, hkeys]
            exact (assocGet_eq_none_iff g.options k).mp hk
          rw [h3]
          rfl
        | some v =>
          have hbase : optGet2 o i k = some v := by
            rw [optGet2, hgi, Option.some_bind, hk]
          obtain ⟨e, hemem, hEIe⟩ := (hcov i g hgi).1 (k, v) (assocGet_mem hk)
          have h3 := cAo i k v hbase ⟨e, List.mem_map_of_mem _ hemem, hEIe⟩
          rw [optGet2, hg3, Option.some_bind] at h3
          rw [h3]
          rfl
  have hstate : o3.state = (specMap tweak o).state := by
    show o3.state = o.state.map (fun ps =>
      (ps.1, ps.2.map (fun ne => (ne.1, entrySpec tweak ne.2))))
    refine assoc_ext _ _ ?_ ?_ (fun pid => ?_)
    · rw [hss3.1, List.map_map]
      rfl
    · rw [hss3.1]
      exact hstnd
    · rw [assocGet_map_val]
      cases hfs : assocGet o.state pid with
      | none =>
        have h3 : assocGet o3.state pid = none := by
          rw [assocGet_eq_none_iff, hss3.1]
          exact (assocGet_eq_none_iff o.state pid).mp hfs
        rw [h3]
        rfl
      | some fs =>
        have hkeys0 := hss3.2 pid
        rw [hfs] at hkeys0
        cases hfs3 : assocGet o3.state pid with
        | none =>
          rw [hfs3] at hkeys0
          cases hkeys0
        | some fs3 =>
          rw [hfs3] at hkeys0
          have hkeys : fs3.map Prod.fst = fs.map Prod.fst := by
            simpa using hkeys0
          refine congrArg some ?_
          refine assoc_ext _ _ ?_ ?_ (fun nm => ?_)
          · rw [hkeys, List.map_map]
            rfl
          · rw [hkeys]
            exact hfldm (pid, fs) (assocGet_mem hfs)
          · rw [assocGet_map_val]
            cases he0 : assocGet fs nm with
            | none =>
              have h3 : assocGet fs3 nm = none := by
                rw [assocGet_eq_none_iff, hkeys]
                exact (assocGet_eq_none_iff fs nm).mp he0
              rw [h3]
              rfl
            | some e0 =>
              have hbase : stateGetF o.state pid nm = some e0 := by
                rw [stateGetF, hfs, Option.some_bind, he0]
              obtain ⟨index, g, hg, hpidg⟩ :=
                groupPidsOf_mem (hstcov (pid, fs) (assocGet_mem hfs))
              obtain ⟨e, hemem, hEIe⟩ :=
                (hcov index g hg).2 pid hpidg fs hfs (nm, e0) (assocGet_mem he0)
              cases e0 with
              | tensorE t =>
                have hEIt : EntryIs o (buildAcc o).callbacks e (.tensorSlot pid nm t) := hEIe
                have hw : stateGetF
                    (applyAliasWrites o.state ((buildAcc o).params.map (tweakEntry tweak)))
                    pid nm = some (.tensorE (tweak t)) :=
                  hcov2 pid nm t hbase ⟨e, List.mem_map_of_mem _ hemem, hEIt⟩
                have h4 : stateGetF o3.state pid nm = some (.tensorE (tweak t)) :=
                  (cFt pid nm t hbase).trans hw
                rw [stateGetF, hfs3, Option.some_bind] at h4
                rw [h4]
                rfl
              | scalarE ty q =>
                have hEIs : EntryIs o (buildAcc o).callbacks e (.scalarSlot pid nm ty q) := hEIe
                have h4 := cAs pid nm ty q hbase ⟨e, List.mem_map_of_mem _ hemem, hEIs⟩
                rw [stateGetF, hfs3, Option.some_bind] at h4
                rw [h4]
                rfl
  have ho3 : o3 = specMap tweak o :=
    optimizer_ext (hlb3.trans hlbfgs.symm) hdist3 hparamGroups hstate hpm3 hstep3
  simp only [broadcast_optimizer_state, hlbfgs, Bool.false_eq_true, if_false,
    initPhase_of_nonempty o hne, hne, broadcast_parameters_tweak]
  rw [hrun, ho3]

/-- Witness for C5 at a concrete optimizer covering every slot kind (a scalar
hyperparameter, a nested container hyperparameter, a scalar state field name
shared by two parameters, and a tensor state field), with the identity
collective. -/
theorem broadcast_reconstructs_optimizer_witness :
    (broadcast_optimizer_state exOpt (fun _ t => .ok t)).1 =
      .ok (specMap (fun t => t) exOpt) :=
  broadcast_reconstructs_optimizer exOpt (fun t => t) (fun t => sameShape_refl t)
    rfl rfl (by decide) (by decide) (by decide) (by decide) (by decide)
